import Mathlib

/-!
Verification of the klondiff sequence-matcher core: a shallow embedding of
`klondikediff.py`, `_piersdiff_py.py`, `colordiff.py` and
`klonpatiencediff.py`, together with theorems settling the behavioural
claims about them.

Python indexing and slicing are embedded with their exact semantics
(negative indices wrap once; out-of-range indexing is an `IndexError`,
modelled in the `Except String` monad).  Loops whose termination Python
does not guarantee are given explicit fuel that returns an error when
exhausted, so an `Except.ok` result always agrees with the Python run.
-/

namespace Klondiff

/-- Python list indexing `xs[i]`: a negative index wraps once by adding
`len(xs)`; anything still out of range raises `IndexError`. -/
def pyGet {α : Type} (xs : List α) (i : Int) : Except String α :=
  let j : Int := if i < 0 then i + xs.length else i
  if j < 0 then .error "IndexError" else
    match xs.get? j.toNat with
    | some x => .ok x
    | none => .error "IndexError"

/-- Clamp one slice bound the way Python does: add `len` to a negative
bound, then clamp into `[0, len]`. -/
def pyBound (len : Nat) (i : Int) : Nat :=
  let j : Int := if i < 0 then i + len else i
  if j < 0 then 0 else min j.toNat len

/-- Python slicing `xs[i:j]` (with `j = none` meaning "to the end"):
never raises, clamps both bounds. -/
def pySlice {α : Type} (xs : List α) (i : Int) (j : Option Int) : List α :=
  let lo := pyBound xs.length i
  let hi := match j with
    | none => xs.length
    | some j => pyBound xs.length j
  (xs.drop lo).take (hi - lo)

/-- Characters removed by the junk-clearing regex character class
`[ \t\r\n]`. -/
def isJunkWs (c : Char) : Bool :=
  c = ' ' || c = '\t' || c = '\r' || c = '\n'

/-- Length of the run of copies of `c` at the head of `cs`. -/
def leadRun (c : Char) : List Char → Nat
  | [] => 0
  | d :: ds => if d = c then leadRun c ds + 1 else 0

theorem leadRun_le (c : Char) (cs : List Char) : leadRun c cs ≤ cs.length := by
  induction cs with
  | nil => simp [leadRun]
  | cons d ds ih =>
    simp only [leadRun]
    split
    · simpa using Nat.succ_le_succ ih
    · exact Nat.zero_le _

theorem length_dropWhile_le {α : Type} (p : α → Bool) (l : List α) :
    (l.dropWhile p).length ≤ l.length := by
  induction l with
  | nil => simp [List.dropWhile]
  | cons d ds ih =>
    simp only [List.dropWhile]
    split
    · exact Nat.le_succ_of_le ih
    · exact Nat.le_refl _

/-- Core of the junk-clearing substitution `re.sub(r'(.)\\1*(?=\\1{2})|[ \\t\\r\\n]*', '', s)`,
scanning the character list the way the regex engine does, with explicit
fuel (every step shortens the list, so fuel `l.length` always suffices;
see `clearJunkGo_congr`).  At each position the first alternative is
tried: it matches iff the maximal run of the current character has
length `r >= 3`, in which case (backtracking the greedy `\\1*` just
enough for the `(?=\\1{2})` lookahead) it consumes `r - 2` characters,
which the substitution deletes.  Otherwise the second alternative
consumes (and deletes) the maximal run of `[ \\t\\r\\n]` characters,
which is empty on a non-whitespace character, after which that character
is kept and scanning resumes one position later. -/
def clearJunkGo : Nat → List Char → List Char
  | _, [] => []
  | 0, _ :: _ => []
  | fuel + 1, c :: cs =>
    let r := leadRun c cs + 1
    if 3 ≤ r then
      clearJunkGo fuel (cs.drop (r - 3))
    else if isJunkWs c then
      clearJunkGo fuel (cs.dropWhile isJunkWs)
    else
      c :: clearJunkGo fuel cs

def clearJunkAux (l : List Char) : List Char :=
  clearJunkGo l.length l

/-- Any fuel of at least the list length gives the same result, so
`clearJunkAux` is the stable value of the scanner. -/
theorem clearJunkGo_congr : ∀ (n f1 f2 : Nat) (l : List Char),
    l.length ≤ n → l.length ≤ f1 → l.length ≤ f2 →
    clearJunkGo f1 l = clearJunkGo f2 l := by
  intro n
  induction n with
  | zero =>
    intro f1 f2 l hl _ _
    have : l = [] := List.length_eq_zero.mp (Nat.le_zero.mp hl)
    subst this
    cases f1 <;> cases f2 <;> rfl
  | succ n ih =>
    intro f1 f2 l hl h1 h2
    match l with
    | [] => cases f1 <;> cases f2 <;> rfl
    | c :: cs =>
      simp only [List.length_cons] at hl h1 h2
      obtain ⟨g1, rfl⟩ : ∃ g, f1 = g + 1 := ⟨f1 - 1, by omega⟩
      obtain ⟨g2, rfl⟩ : ∃ g, f2 = g + 1 := ⟨f2 - 1, by omega⟩
      simp only [clearJunkGo]
      have hdw := length_dropWhile_le isJunkWs cs
      split
      · exact ih g1 g2 _ (by simp only [List.length_drop]; omega)
          (by simp only [List.length_drop]; omega) (by simp only [List.length_drop]; omega)
      · split
        · exact ih g1 g2 _ (by omega) (by omega) (by omega)
        · rw [ih g1 g2 cs (by omega) (by omega) (by omega)]

/-- The klondike junk-clearing line normalization
`clear_junk.sub('', s)` from `KlondikeSequenceMatcher.get_matching_blocks`
(and `PatienceSequenceMatcher_py.get_nearly_matching_blocks`). -/
def clear_junk (s : String) : String :=
  ⟨clearJunkAux s.data⟩

/-! Association lists standing in for Python dicts.  Keys are unique
(updates happen in place), so lookup/set/delete have dict semantics. -/

/-- Dict lookup, `d.get(x)` / `d[x]`. -/
def alookup {α β : Type} [DecidableEq α] : List (α × β) → α → Option β
  | [], _ => none
  | (key, v) :: rest, x => if x = key then some v else alookup rest x

/-- Dict insert-or-update, `d[x] = v`. -/
def aset {α β : Type} [DecidableEq α] : List (α × β) → α → β → List (α × β)
  | [], x, v => [(x, v)]
  | (key, w) :: rest, x, v =>
    if x = key then (key, v) :: rest else (key, w) :: aset rest x v

/-- Dict delete, `del d[x]`. -/
def adel {α β : Type} [DecidableEq α] : List (α × β) → α → List (α × β)
  | [], _ => []
  | (key, w) :: rest, x => if x = key then rest else (key, w) :: adel rest x

section UniqueLcs

variable {α : Type} [DecidableEq α]

/-- First loop of `unique_lcs_py`: `index[line] = position of line in a`,
set to `None` (here: `some none` for present-but-invalid) when the line is
a duplicate in `a`. -/
def buildIndexAux : List α → Nat → List (α × Option Nat) → List (α × Option Nat)
  | [], _, index => index
  | line :: rest, i, index =>
    let index :=
      if (alookup index line).isSome then aset index line none
      else aset index line (some i)
    buildIndexAux rest (i + 1) index

def buildIndex (a : List α) : List (α × Option Nat) :=
  buildIndexAux a 0 []

/-- Second loop of `unique_lcs_py`: `btoa[pos] = position of b[pos] in a`
when that line occurs exactly once in both sequences, else `None`; a
second occurrence in `b` invalidates the earlier entry and removes the
line from `index`. -/
def buildBtoaAux : List α → Nat → List (α × Option Nat) → List (α × Nat) →
    List (Option Nat) → List (Option Nat)
  | [], _, _, _, btoa => btoa
  | line :: rest, pos, index, index2, btoa =>
    match (alookup index line).join with
    | none => buildBtoaAux rest (pos + 1) index index2 btoa
    | some nxt =>
      match alookup index2 line with
      | some prevPos =>
        buildBtoaAux rest (pos + 1) (adel index line) index2 (btoa.set prevPos none)
      | none =>
        buildBtoaAux rest (pos + 1) index (aset index2 line pos) (btoa.set pos (some nxt))

def buildBtoa (a b : List α) : List (Option Nat) :=
  buildBtoaAux b 0 (buildIndex a) [] (List.replicate b.length none)

/-- Insertion point for `x` in the sorted list `piles` (Python `stacks`), to
the right of equal entries: `bisect.bisect(stacks, x)`. -/
def bisect (piles : List Nat) (x : Nat) : Nat :=
  (piles.takeWhile (fun s => s ≤ x)).length

/-- State of the patience-sorting loop of `unique_lcs_py`. -/
structure PatState where
  backpointers : List (Option Nat)
  piles : List Nat
  lasts : List Nat
  k : Nat
deriving Repr, DecidableEq

/-- Pile index chosen for a valid `apos`, including the two fast-path
probes that reuse the previous pile index `k` before falling back to
binary search (`bisect`). -/
def patK (st : PatState) (apos : Nat) : Nat :=
  let piles := st.piles
  if piles ≠ [] ∧ piles.getD (piles.length - 1) 0 < apos then
    piles.length
  else if piles ≠ [] ∧ piles.getD st.k 0 < apos ∧
      (st.k = piles.length - 1 ∨ apos < piles.getD (st.k + 1) 0) then
    st.k + 1
  else
    bisect piles apos

/-- One iteration of the patience-sorting loop, for a valid
`(bpos, apos)` pair of the `btoa` stream. -/
def patStep (st : PatState) (bpos apos : Nat) : PatState :=
  let k := patK st apos
  let backpointers :=
    if 0 < k then st.backpointers.set bpos (some (st.lasts.getD (k - 1) 0))
    else st.backpointers
  if k < st.piles.length then
    { backpointers := backpointers, piles := st.piles.set k apos,
      lasts := st.lasts.set k bpos, k := k }
  else
    { backpointers := backpointers, piles := st.piles ++ [apos],
      lasts := st.lasts ++ [bpos], k := k }

/-- The patience-sorting loop: `for bpos, apos in enumerate(btoa)`,
skipping invalidated entries. -/
def patLoop : List (Option Nat) → Nat → PatState → PatState
  | [], _, st => st
  | none :: rest, bpos, st => patLoop rest (bpos + 1) st
  | some apos :: rest, bpos, st => patLoop rest (bpos + 1) (patStep st bpos apos)

/-- Backpointer chase reconstructing the result of `unique_lcs_py`.
Python appends and reverses at the end; prepending into the accumulator
builds the same list.  The fuel is an upper bound on the chain length
(backpointers strictly decrease). -/
def chaseBack (btoa backpointers : List (Option Nat)) :
    Nat → Nat → List (Nat × Nat) → List (Nat × Nat)
  | 0, _, acc => acc
  | fuel + 1, k, acc =>
    let acc := ((btoa.getD k none).getD 0, k) :: acc
    match backpointers.getD k none with
    | none => acc
    | some k2 => chaseBack btoa backpointers fuel k2 acc

/-- `unique_lcs_py(a, b)` from `_piersdiff_py.py` (the copy in
`klondikediff.py` is identical): longest common subsequence restricted to
lines occurring exactly once in each input, by patience sorting. -/
def unique_lcs (a b : List α) : List (Nat × Nat) :=
  let btoa := buildBtoa a b
  let st := patLoop btoa 0 ⟨List.replicate b.length none, [], [], 0⟩
  match st.lasts.getLast? with
  | none => []
  | some kLast => chaseBack btoa st.backpointers (b.length + 1) kLast []

end UniqueLcs

end Klondiff

namespace Difflib

/-!
Embedding of the parts of CPython's `difflib.SequenceMatcher` (with
`isjunk=None`, `autojunk=True`, as constructed by the klondike matcher
and by `colordiff`) that this repository calls: `get_matching_blocks`
and its helpers `__chain_b` / `find_longest_match`.  With `isjunk=None`
the junk set `bjunk` is empty, so the two junk-extension loops of
`find_longest_match` are identities and are omitted.
-/

open Klondiff (alookup aset)

variable {α : Type} [DecidableEq α]

/-- Building `b2j`: `b2j.setdefault(elt, []).append(i)`. -/
def b2jAux : List α → Nat → List (α × List Nat) → List (α × List Nat)
  | [], _, m => m
  | x :: rest, i, m =>
    b2jAux rest (i + 1) (aset m x ((alookup m x).getD [] ++ [i]))

/-- The `b2j` map after autojunk: for `len(b) >= 200`, elements occurring
more than `len(b) // 100 + 1` times are popular and removed. -/
def b2jMap (b : List α) : List (α × List Nat) :=
  let m := b2jAux b 0 []
  if 200 ≤ b.length then
    let ntest := b.length / 100 + 1
    m.filter (fun kv => kv.2.length ≤ ntest)
  else m

/-- Running best of `find_longest_match`. -/
structure FlmBest where
  besti : Nat
  bestj : Nat
  bestsize : Nat
deriving Repr, DecidableEq

/-- Inner loop of `find_longest_match` over `b2j[a[i]]` (a sorted index
list): `continue` below `blo`, `break` at `bhi`, extend the diagonal run
length and update the best.  `j2len.get(j-1, 0)` is `0` at `j = 0`
because `-1` is never a key. -/
def flmInner (j2len : List (Nat × Nat)) (blo bhi i : Nat) :
    List Nat → List (Nat × Nat) → FlmBest → List (Nat × Nat) × FlmBest
  | [], newj2len, best => (newj2len, best)
  | j :: js, newj2len, best =>
    if j < blo then flmInner j2len blo bhi i js newj2len best
    else if bhi ≤ j then (newj2len, best)
    else
      let k := (if j = 0 then 0 else (alookup j2len (j - 1)).getD 0) + 1
      let newj2len := aset newj2len j k
      let best := if best.bestsize < k then ⟨i + 1 - k, j + 1 - k, k⟩ else best
      flmInner j2len blo bhi i js newj2len best

/-- Outer loop of `find_longest_match` over `a[alo:ahi]`, threading
`j2len` between rows. -/
def flmLoop (b2j : List (α × List Nat)) (blo bhi : Nat) :
    List α → Nat → List (Nat × Nat) → FlmBest → FlmBest
  | [], _, _, best => best
  | x :: rest, i, j2len, best =>
    let p := flmInner j2len blo bhi i ((alookup b2j x).getD []) [] best
    flmLoop b2j blo bhi rest (i + 1) p.1 p.2

/-- Extension loop: grow the best match leftwards over equal elements.
Python indexes are always in range here; fuel `len(a) + 1` exceeds the
iteration count `besti - alo`. -/
def extendLeft (a b : List α) (alo blo : Nat) : Nat → FlmBest → FlmBest
  | 0, best => best
  | fuel + 1, best =>
    if alo < best.besti ∧ blo < best.bestj then
      match a.get? (best.besti - 1), b.get? (best.bestj - 1) with
      | some x, some y =>
        if x = y then
          extendLeft a b alo blo fuel ⟨best.besti - 1, best.bestj - 1, best.bestsize + 1⟩
        else best
      | _, _ => best
    else best

/-- Extension loop: grow the best match rightwards over equal elements. -/
def extendRight (a b : List α) (ahi bhi : Nat) : Nat → FlmBest → FlmBest
  | 0, best => best
  | fuel + 1, best =>
    if best.besti + best.bestsize < ahi ∧ best.bestj + best.bestsize < bhi then
      match a.get? (best.besti + best.bestsize), b.get? (best.bestj + best.bestsize) with
      | some x, some y =>
        if x = y then
          extendRight a b ahi bhi fuel ⟨best.besti, best.bestj, best.bestsize + 1⟩
        else best
      | _, _ => best
    else best

/-- `SequenceMatcher.find_longest_match(alo, ahi, blo, bhi)`. -/
def find_longest_match (a b : List α) (b2j : List (α × List Nat))
    (alo ahi blo bhi : Nat) : FlmBest :=
  let best := flmLoop b2j blo bhi ((a.drop alo).take (ahi - alo)) alo [] ⟨alo, blo, 0⟩
  let best := extendLeft a b alo blo (a.length + 1) best
  extendRight a b ahi bhi (a.length + 1) best

/-- Queue loop of `get_matching_blocks`.  The queue head is the Python
list tail (`queue.pop()` pops the last element, and pushes become conses
in the same order).  Fuel bounds the number of pops, which is at most
`2 * min(len(a), len(b)) + 1`. -/
def mblocksGo (a b : List α) (b2j : List (α × List Nat)) :
    Nat → List (Nat × Nat × Nat × Nat) → List (Nat × Nat × Nat) →
    Except String (List (Nat × Nat × Nat))
  | 0, _, _ => .error "fuel exhausted"
  | _ + 1, [], acc => .ok acc
  | fuel + 1, (alo, ahi, blo, bhi) :: queue, acc =>
    let f := find_longest_match a b b2j alo ahi blo bhi
    if f.bestsize ≠ 0 then
      let acc := acc ++ [(f.besti, f.bestj, f.bestsize)]
      let queue := if alo < f.besti ∧ blo < f.bestj then
          (alo, f.besti, blo, f.bestj) :: queue else queue
      let queue := if f.besti + f.bestsize < ahi ∧ f.bestj + f.bestsize < bhi then
          (f.besti + f.bestsize, ahi, f.bestj + f.bestsize, bhi) :: queue else queue
      mblocksGo a b b2j fuel queue acc
    else mblocksGo a b b2j fuel queue acc

/-- Lexicographic order on `(i, j, n)` triples: `matching_blocks.sort()`. -/
def lexLe (x y : Nat × Nat × Nat) : Bool :=
  x.1 < y.1 || (x.1 = y.1 && (x.2.1 < y.2.1 || (x.2.1 = y.2.1 && x.2.2 ≤ y.2.2)))

def insLex (x : Nat × Nat × Nat) : List (Nat × Nat × Nat) → List (Nat × Nat × Nat)
  | [] => [x]
  | y :: rest => if lexLe x y then x :: y :: rest else y :: insLex x rest

def tsort : List (Nat × Nat × Nat) → List (Nat × Nat × Nat)
  | [] => []
  | x :: rest => insLex x (tsort rest)

/-- The adjacent-block merge of `get_matching_blocks`, starting from
`i1 = j1 = k1 = 0`. -/
def mergeAdj : List (Nat × Nat × Nat) → Nat → Nat → Nat → List (Nat × Nat × Nat)
  | [], i1, j1, k1 => if k1 ≠ 0 then [(i1, j1, k1)] else []
  | (i2, j2, k2) :: rest, i1, j1, k1 =>
    if i1 + k1 = i2 ∧ j1 + k1 = j2 then mergeAdj rest i1 j1 (k1 + k2)
    else (if k1 ≠ 0 then [(i1, j1, k1)] else []) ++ mergeAdj rest i2 j2 k2

/-- `difflib.SequenceMatcher(None, a, b).get_matching_blocks()`. -/
def get_matching_blocks (a b : List α) : Except String (List (Nat × Nat × Nat)) := do
  let b2j := b2jMap b
  let blocks ← mblocksGo a b b2j (2 * (a.length + b.length) + 4)
    [(0, a.length, 0, b.length)] []
  .ok (mergeAdj (tsort blocks) 0 0 0 ++ [(a.length, b.length, 0)])

end Difflib

namespace Klondiff

/-!
Embedding of `KlondikeSequenceMatcher.get_matching_blocks` and
`get_opcodes` from `klondikediff.py` (with the default
`extra_effort = 1`).  Blocks and opcodes carry `Int` coordinates, exactly
as Python ints do; list accesses go through `pyGet`, so any `IndexError`
of the Python run is an `Except.error` here.
-/

/-- A matching block `(i, j, n)`. -/
abbrev Block := Int × Int × Int

/-- An opcode `(tag, i1, i2, j1, j2)`. -/
abbrev Opcode := String × Int × Int × Int × Int

/-- The leading `while a_ws[start_line] == b_ws[start_line]` loop.  The
loop is unguarded in the source; the fuel exceeds the number of
iterations possible before `pyGet` raises. -/
def startLineLoop (a_ws b_ws : List String) : Nat → Nat → Except String Nat
  | 0, _ => .error "fuel exhausted"
  | fuel + 1, s => do
    let x ← pyGet a_ws s
    let y ← pyGet b_ws s
    if x = y then startLineLoop a_ws b_ws fuel (s + 1) else .ok s

/-- The trailing `while a_ws[end_line] == b_ws[end_line]: end_line -= 1`
loop, returning the first (most negative) index at which the lines
differ. -/
def endLineLoop (a_ws b_ws : List String) : Nat → Int → Except String Int
  | 0, _ => .error "fuel exhausted"
  | fuel + 1, s => do
    let x ← pyGet a_ws s
    let y ← pyGet b_ws s
    if x = y then endLineLoop a_ws b_ws fuel (s - 1) else .ok s

/-- Backward anchor growth: `start = -1; while a_ws[apos+start] ==
b_ws[bpos+start]: start -= 1`.  Returns the exit value of `start`
(the caller adds 1 back, as the source does). -/
def growBack (a_ws b_ws : List String) (apos bpos : Int) :
    Nat → Int → Except String Int
  | 0, _ => .error "fuel exhausted"
  | fuel + 1, start => do
    let x ← pyGet a_ws (apos + start)
    let y ← pyGet b_ws (bpos + start)
    if x = y then growBack a_ws b_ws apos bpos fuel (start - 1) else .ok start

/-- Forward anchor growth: `end = 1; while a_ws[apos+end] ==
b_ws[bpos+end]: end += 1`. -/
def growFwd (a_ws b_ws : List String) (apos bpos : Int) :
    Nat → Int → Except String Int
  | 0, _ => .error "fuel exhausted"
  | fuel + 1, e => do
    let x ← pyGet a_ws (apos + e)
    let y ← pyGet b_ws (bpos + e)
    if x = y then growFwd a_ws b_ws apos bpos fuel (e + 1) else .ok e

/-- State of the anchor-growing loop: committed blocks (Python `matches`)
and the end of the previous growth. -/
structure GrowState where
  blocks : List Block
  last_a : Int
  last_b : Int
deriving Repr, DecidableEq

/-- The anchor loop of `get_matching_blocks`: skip overlapping anchors,
grow each remaining anchor in both directions, run the difflib fallback
on a wide-enough gap, and commit the grown block. -/
def growAnchors (a_ws b_ws : List String) :
    List (Nat × Nat) → GrowState → Except String GrowState
  | [], st => .ok st
  | (aposN, bposN) :: rest, st => do
    let apos : Int := aposN
    let bpos : Int := bposN
    if apos ≤ st.last_a then
      growAnchors a_ws b_ws rest st
    else do
      let fuel := 2 * (a_ws.length + b_ws.length) + 4
      let s0 ← growBack a_ws b_ws apos bpos fuel (-1)
      let start := s0 + 1
      let e ← growFwd a_ws b_ws apos bpos fuel 1
      let st ←
        if st.last_a < apos + start ∧ st.last_b < bpos + start ∧
            st.last_a + st.last_b + 2 < apos + bpos + 2 * start then do
          let inm ← Difflib.get_matching_blocks
            (pySlice a_ws st.last_a (some (apos + start)))
            (pySlice b_ws st.last_b (some (bpos + start)))
          .ok { st with blocks := st.blocks ++
            ((inm.filter (fun m => m.2.2 ≠ 0)).map
              (fun m => ((m.1 : Int) + st.last_a, (m.2.1 : Int) + st.last_b, (m.2.2 : Int)))) }
        else .ok st
      growAnchors a_ws b_ws rest
        { blocks := st.blocks ++ [(apos + start, bpos + start, e - start)],
          last_a := apos + e, last_b := bpos + e }

/-- The `for k in range(d)` scan of the blank-line shift: find the first
`k < d` with `a_ws[base - k] == ''` (where `base = matches[n+1][0] + d - 1`). -/
def blankFind (a_ws : List String) (base : Int) :
    Nat → Nat → Except String (Option Nat)
  | 0, _ => .ok none
  | cnt + 1, k => do
    let x ← pyGet a_ws (base - k)
    if x = "" then .ok (some k) else blankFind a_ws base cnt (k + 1)

/-- One step of the overlap-reconciliation loop, at index `n`, where `ob`
is the block unpacked from the iteration copy `matches[:-1]` and `live`
is the mutated list. -/
def reconStep (a_ws : List String) (live : List Block) (n : Nat) (ob : Block) :
    Except String (List Block) := do
  let nxt := live.getD (n + 1) (0, 0, 0)
  let d := max (ob.1 + ob.2.2 - nxt.1) (ob.2.1 + ob.2.2 - nxt.2.1)
  if 0 < d then do
    let kOpt ← blankFind a_ws (nxt.1 + d - 1) d.toNat 0
    let (live, d) :=
      match kOpt with
      | some k =>
        let cur := live.getD n (0, 0, 0)
        (live.set n (cur.1, cur.2.1, cur.2.2 - k), d - k)
      | none => (live, d)
    let nxt := live.getD (n + 1) (0, 0, 0)
    .ok (live.set (n + 1) (nxt.1 + d, nxt.2.1 + d, nxt.2.2 - d))
  else .ok live

/-- The reconciliation loop `for n, (apos, bpos, size) in
enumerate(matches[:-1])`: iteration runs over a copy of the list while
the updates apply to the live list. -/
def reconLoop (a_ws : List String) : List Block → Nat → List Block →
    Except String (List Block)
  | [], _, live => .ok live
  | ob :: obs, n, live => do
    let live ← reconStep a_ws live n ob
    reconLoop a_ws obs (n + 1) live

/-- `_check_consistency(answer)`: starts are non-decreasing with respect
to the previous block's end in both coordinates, else `ValueError`. -/
def checkConsLoop : List Block → Int → Int → Except String Unit
  | [], _, _ => .ok ()
  | (a, b, len) :: rest, na, nb =>
    if a < na then .error "ValueError: Non increasing matches for a"
    else if b < nb then .error "ValueError: Non increasing matches for b"
    else checkConsLoop rest (a + len) (b + len)

/-- `KlondikeSequenceMatcher(None, a, b).get_matching_blocks()`. -/
def klondikeGetMatchingBlocks (a b : List String) : Except String (List Block) := do
  let a_ws := a.map clear_junk
  let b_ws := b.map clear_junk
  let start_line ← startLineLoop a_ws b_ws (a_ws.length + 2) 0
  let e0 ← endLineLoop a_ws b_ws (a_ws.length + b_ws.length + 4) (-1)
  -- end_line += 1; if end_line == 0: end_line = None
  let end_line : Option Int := if e0 + 1 = 0 then none else some (e0 + 1)
  let res := unique_lcs (pySlice a_ws start_line end_line)
    (pySlice b_ws start_line end_line)
  let res := res.map (fun p => (p.1 + start_line, p.2 + start_line))
  let init : List Block :=
    if start_line ≠ 0 then [(0, 0, (start_line : Int))] else []
  let st ← growAnchors a_ws b_ws res ⟨init, start_line, start_line⟩
  let ms := st.blocks
  let ms := match end_line with
    | some el => ms ++ [((a_ws.length : Int) + el, (b_ws.length : Int) + el, -el)]
    | none => ms
  let ms := ms ++ [((a_ws.length : Int), (b_ws.length : Int), 0)]
  let ms ← reconLoop a_ws ms.dropLast 0 ms
  checkConsLoop ms (-1) (-1)
  .ok ms

end Klondiff

namespace Klondiff

/-- `add_tag(t)` from `KlondikeSequenceMatcher.get_opcodes`. -/
def add_tag (t : Int × Int × Int × Int) : Opcode :=
  let tag :=
    if t.1 = t.2.1 then "insert"
    else if t.2.2.1 = t.2.2.2 then "delete"
    else "replace"
  (tag, t.1, t.2.1, t.2.2.1, t.2.2.2)

/-- `'sep'.join(parts)`. -/
def joinSep (sep : String) : List String → String
  | [] => ""
  | [s] => s
  | s :: rest => s ++ sep ++ joinSep sep rest

/-- The `while cur_a <= m[0]: cur_a += len(a_ws[i+cur_an]) + 2;
cur_an += 1` walk of the extra-effort path.  Each iteration adds at
least 2 to `cur`, so fuel `target + 2` covers every loop that exits
normally; out-of-range indexing errors as in Python. -/
def curWalk (ws : List String) (i : Int) (target : Nat) :
    Nat → Nat → Nat → Except String (Nat × Nat)
  | 0, _, _ => .error "fuel exhausted"
  | fuel + 1, cur, curn =>
    if cur ≤ target then do
      let s ← pyGet ws (i + curn)
      curWalk ws i target fuel (cur + s.length + 2) (curn + 1)
    else .ok (cur, curn)

/-- State threaded through the extra-effort match loop of
`get_opcodes`. -/
structure ExtraState where
  cur_a : Nat
  cur_b : Nat
  cur_an : Nat
  cur_bn : Nat
  prev_an : Nat
  prev_bn : Nat
  answer : List Opcode
deriving Repr, DecidableEq

/-- The `for m in matches` loop of the extra-effort path: for each
difflib character match of length at least 5, map its offsets back to
line indices, emit the lines strictly between the previous and current
match as one block, then the matched line pair as a singleton opcode
whose tag is `equal` exactly when the raw lines are byte-equal (the
branch with the stray diagnostic print). -/
def extraLoop (araw braw a_ws b_ws : List String) (i j : Int) :
    List (Nat × Nat × Nat) → ExtraState → Except String ExtraState
  | [], st => .ok st
  | (m0, m1, msize) :: rest, st =>
    if 5 ≤ msize then do
      let ca ← curWalk a_ws i m0 (m0 + 2) st.cur_a st.cur_an
      let cb ← curWalk b_ws j m1 (m1 + 2) st.cur_b st.cur_bn
      let can := ca.2
      let cbn := cb.2
      if st.prev_an < can ∧ st.prev_bn < cbn then do
        let ans :=
          if (st.prev_an : Int) < can - 1 ∨ (st.prev_bn : Int) < cbn - 1 then
            st.answer ++ [add_tag (i + st.prev_an, i + can - 1, j + st.prev_bn, j + cbn - 1)]
          else st.answer
        let x ← pyGet araw (i + can - 1)
        let y ← pyGet braw (j + cbn - 1)
        let tag := if x = y then "equal" else "replace"
        let ans := ans ++ [(tag, i + can - 1, i + can, j + cbn - 1, j + cbn)]
        extraLoop araw braw a_ws b_ws i j rest
          ⟨ca.1, cb.1, can, cbn, can, cbn, ans⟩
      else
        extraLoop araw braw a_ws b_ws i j rest
          ⟨ca.1, cb.1, can, cbn, st.prev_an, st.prev_bn, st.answer⟩
    else extraLoop araw braw a_ws b_ws i j rest st

/-- The `for n in range(size)` scan inside a block: lines equal only
under normalization split the block into `equal` runs and singleton
`replace` opcodes.  Returns the final `n1` together with the opcodes. -/
def withinLoop (araw braw : List String) (ai bj : Int) :
    Nat → Nat → Nat → List Opcode → Except String (Nat × List Opcode)
  | 0, _, n1, acc => .ok (n1, acc)
  | cnt + 1, n, n1, acc => do
    let x ← pyGet araw (ai + n)
    let y ← pyGet braw (bj + n)
    if x ≠ y then
      let acc := if n1 < n then acc ++ [("equal", ai + n1, ai + n, bj + n1, bj + n)] else acc
      let acc := acc ++ [("replace", ai + n, ai + n + 1, bj + n, bj + n + 1)]
      withinLoop araw braw ai bj cnt (n + 1) (n + 1) acc
    else withinLoop araw braw ai bj cnt (n + 1) n1 acc

/-- The main loop of `get_opcodes` over the matching blocks, with cursor
`(i, j)`. -/
def opcodeLoop (araw braw a_ws b_ws : List String) (extra_effort : Bool) :
    List Block → Int → Int → List Opcode → Except String (List Opcode)
  | [], _, _, answer => .ok answer
  | (ai, bj, size) :: rest, i, j, answer => do
    let answer ←
      if i < ai ∧ j < bj then
        if extra_effort ∧ (i < ai - 1 ∨ j < bj - 1) then do
          let ajoin := joinSep "a\n" (pySlice a_ws i (some ai))
          let bjoin := joinSep "b\n" (pySlice b_ws j (some bj))
          let mtchs ← Difflib.get_matching_blocks ajoin.data bjoin.data
          let st ← extraLoop araw braw a_ws b_ws i j mtchs ⟨0, 0, 0, 0, 0, 0, answer⟩
          if i + st.prev_an < ai ∨ j + st.prev_bn < bj then
            .ok (st.answer ++ [add_tag (i + st.prev_an, ai, j + st.prev_bn, bj)])
          else .ok st.answer
        else .ok (answer ++ [("replace", i, ai, j, bj)])
      else if i < ai then .ok (answer ++ [("delete", i, ai, j, bj)])
      else if j < bj then .ok (answer ++ [("insert", i, ai, j, bj)])
      else .ok answer
    let p ← withinLoop araw braw ai bj size.toNat 0 0 answer
    let answer :=
      if (p.1 : Int) < size then
        p.2 ++ [("equal", ai + p.1, ai + size, bj + p.1, bj + size)]
      else p.2
    opcodeLoop araw braw a_ws b_ws extra_effort rest (ai + size) (bj + size) answer

/-- The trailing sanity check of `get_opcodes`: opcodes chain from
`(0, 0)`, are edge-adjacent and end at `(len(a), len(b))`, else the
`Error in algorithm` exception (a `NameError` when the list is empty and
the end check fails, since the message formatting references loop
variables that were never bound). -/
def sanityLoop : List Opcode → Int → Int → Bool → Int × Int × Bool
  | [], i3, j3, bad => (i3, j3, bad)
  | (_, i1, _i2, j1, _j2) :: rest, i3, j3, bad =>
    sanityLoop rest _i2 _j2 (bad || ¬(i1 = i3 ∧ j1 = j3))

def sanityCheck (answer : List Opcode) (la lb : Int) : Except String Unit :=
  let r := sanityLoop answer 0 0 false
  if ¬(r.1 = la ∧ r.2.1 = lb) then
    if answer = [] then .error "NameError"
    else .error "Exception: Error in algorithm, please report"
  else if r.2.2 then .error "Exception: Error in algorithm, please report"
  else .ok ()

/-- `KlondikeSequenceMatcher(None, a, b).get_opcodes()` (default
`extra_effort = 1`). -/
def klondikeGetOpcodes (a b : List String) : Except String (List Opcode) := do
  let blocks ← klondikeGetMatchingBlocks a b
  let a_ws := a.map clear_junk
  let b_ws := b.map clear_junk
  let answer ← opcodeLoop a b a_ws b_ws true blocks 0 0 []
  sanityCheck answer a.length b.length
  .ok answer

end Klondiff

namespace Klondiff

/-!
Specification-side description of the klondike normalization, used to
settle the claim about `clear_junk`.  Modelled from the spec's words,
amended to what the regex actually does: delete every whitespace
character (the class `[ \t\r\n]`), and within any maximal run of
`k ≥ 3` identical characters keep exactly two copies.
-/

/-- Spec-side normalization: walk the maximal runs of the string; a
whitespace run disappears, a run of `k ≥ 3` identical characters is kept
as two copies, shorter runs are kept whole. -/
def specJunkRuns : List Char → List Char
  | [] => []
  | c :: cs =>
    let k := leadRun c cs
    let rest := specJunkRuns (cs.drop k)
    if isJunkWs c then rest
    else if 3 ≤ k + 1 then c :: c :: rest
    else List.replicate (k + 1) c ++ rest
termination_by l => l.length
decreasing_by
  simp only [List.length_cons, List.length_drop]
  omega

/-- Spec-side normalization on strings. -/
def specJunkNorm (s : String) : String :=
  ⟨specJunkRuns s.data⟩

theorem leadRun_take (c : Char) (cs : List Char) :
    cs.take (leadRun c cs) = List.replicate (leadRun c cs) c := by
  induction cs with
  | nil => simp [leadRun]
  | cons d ds ih =>
    simp only [leadRun]
    split
    · rename_i h
      simp [List.replicate_succ, h, ih]
    · simp

theorem leadRun_drop_self (c : Char) (cs : List Char) :
    leadRun c (cs.drop (leadRun c cs)) = 0 := by
  induction cs with
  | nil => simp [leadRun]
  | cons d ds ih =>
    simp only [leadRun]
    split
    · simpa using ih
    · rename_i h
      simp [leadRun, h]

theorem leadRun_decomp (c : Char) (cs : List Char) :
    cs = List.replicate (leadRun c cs) c ++ cs.drop (leadRun c cs) := by
  conv_lhs => rw [← List.take_append_drop (leadRun c cs) cs]
  rw [leadRun_take]

theorem drop_replicate_cons_two (c : Char) (k : Nat) (t : List Char) (h : 2 ≤ k) :
    (List.replicate k c ++ t).drop (k - 2) = c :: c :: t := by
  obtain ⟨m, rfl⟩ : ∃ m, k = m + 2 := ⟨k - 2, by omega⟩
  rw [List.replicate_add, List.append_assoc,
    show m + 2 - 2 = m from by omega, List.drop_left' (by simp)]
  rfl

theorem leadRun_drop_two (c : Char) (cs : List Char) (h : 2 ≤ leadRun c cs) :
    cs.drop (leadRun c cs - 2) = c :: c :: cs.drop (leadRun c cs) := by
  have h2 := drop_replicate_cons_two c (leadRun c cs) (cs.drop (leadRun c cs)) h
  rw [← leadRun_decomp c cs] at h2
  exact h2

theorem dropWhile_replicate_append (c : Char) (hc : isJunkWs c = true)
    (k : Nat) (t : List Char) :
    (List.replicate k c ++ t).dropWhile isJunkWs = t.dropWhile isJunkWs := by
  induction k with
  | zero => simp
  | succ n ih => simp [List.replicate_succ, List.dropWhile, hc, ih]

/-- Unfolding equation of `clearJunkAux` on a nonempty list. -/
theorem clearJunkAux_cons (c : Char) (cs : List Char) :
    clearJunkAux (c :: cs) =
      if 3 ≤ leadRun c cs + 1 then clearJunkAux (cs.drop (leadRun c cs + 1 - 3))
      else if isJunkWs c then clearJunkAux (cs.dropWhile isJunkWs)
      else c :: clearJunkAux cs := by
  show clearJunkGo (cs.length + 1) (c :: cs) = _
  simp only [clearJunkGo]
  have hdw := length_dropWhile_le isJunkWs cs
  split
  · exact clearJunkGo_congr cs.length cs.length _ _
      (by simp only [List.length_drop]; omega)
      (by simp only [List.length_drop]; omega) (le_refl _)
  · split
    · exact clearJunkGo_congr cs.length cs.length _ _ (by omega) (by omega) (le_refl _)
    · rfl

/-- On a whitespace head, the scanner behaves like dropping the whole
leading whitespace run. -/
theorem clearJunkAux_ws (c : Char) (cs : List Char) (hc : isJunkWs c = true) :
    clearJunkAux (c :: cs) = clearJunkAux (cs.dropWhile isJunkWs) := by
  rw [clearJunkAux_cons]
  by_cases h3 : 3 ≤ leadRun c cs + 1
  · rw [if_pos h3]
    have hk2 : 2 ≤ leadRun c cs := by omega
    have hdrop : cs.drop (leadRun c cs + 1 - 3) = c :: c :: cs.drop (leadRun c cs) := by
      rw [show leadRun c cs + 1 - 3 = leadRun c cs - 2 from by omega]
      exact leadRun_drop_two c cs hk2
    rw [hdrop, clearJunkAux_cons]
    have hlr : leadRun c (c :: cs.drop (leadRun c cs)) = 1 := by
      simp [leadRun, leadRun_drop_self]
    rw [hlr]
    rw [if_neg (by omega), if_pos hc]
    have hl : (c :: cs.drop (leadRun c cs)).dropWhile isJunkWs
        = (cs.drop (leadRun c cs)).dropWhile isJunkWs := by
      simp [List.dropWhile, hc]
    rw [hl]
    conv_rhs => rw [leadRun_decomp c cs]
    rw [dropWhile_replicate_append c hc]
  · rw [if_neg h3, if_pos hc]

/-- Dropping a leading whitespace run does not change the scanner's
output. -/
theorem clearJunkAux_dropWhile (l : List Char) :
    clearJunkAux (l.dropWhile isJunkWs) = clearJunkAux l := by
  induction l with
  | nil => simp
  | cons d ds ih =>
    by_cases hd : isJunkWs d = true
    · rw [List.dropWhile_cons_of_pos hd, clearJunkAux_ws d ds hd, ih]
    · rw [List.dropWhile_cons_of_neg (by simp [hd])]

/-- Unfolding equation of `specJunkRuns` on a nonempty list. -/
theorem specJunkRuns_cons (c : Char) (cs : List Char) :
    specJunkRuns (c :: cs) =
      if isJunkWs c then specJunkRuns (cs.drop (leadRun c cs))
      else if 3 ≤ leadRun c cs + 1 then c :: c :: specJunkRuns (cs.drop (leadRun c cs))
      else List.replicate (leadRun c cs + 1) c ++ specJunkRuns (cs.drop (leadRun c cs)) := by
  rw [specJunkRuns]

/-- The regex scanner agrees with the spec-side run description. -/
theorem clearJunkAux_eq_specJunkRuns (l : List Char) :
    clearJunkAux l = specJunkRuns l := by
  match l with
  | [] => simp [clearJunkAux, specJunkRuns, clearJunkGo]
  | c :: cs =>
    have hlt : (cs.drop (leadRun c cs)).length < (c :: cs).length := by
      simp only [List.length_cons, List.length_drop]
      omega
    have ihrest := clearJunkAux_eq_specJunkRuns (cs.drop (leadRun c cs))
    by_cases hws : isJunkWs c = true
    · rw [clearJunkAux_ws c cs hws, specJunkRuns_cons, if_pos hws]
      have h1 : cs.dropWhile isJunkWs = (cs.drop (leadRun c cs)).dropWhile isJunkWs := by
        conv_lhs => rw [leadRun_decomp c cs]
        rw [dropWhile_replicate_append c hws]
      rw [h1, clearJunkAux_dropWhile, ihrest]
    · rw [clearJunkAux_cons, specJunkRuns_cons, if_neg hws]
      by_cases h3 : 3 ≤ leadRun c cs + 1
      · rw [if_pos h3, if_pos h3]
        have hk2 : 2 ≤ leadRun c cs := by omega
        rw [show leadRun c cs + 1 - 3 = leadRun c cs - 2 from by omega,
          leadRun_drop_two c cs hk2]
        have hlr1 : leadRun c (c :: cs.drop (leadRun c cs)) = 1 := by
          simp [leadRun, leadRun_drop_self]
        rw [clearJunkAux_cons, hlr1, if_neg (by omega), if_neg hws,
          clearJunkAux_cons, leadRun_drop_self, if_neg (by omega), if_neg hws, ihrest,
          if_neg hws]
      · rw [if_neg h3, if_neg h3]
        have hk1 : leadRun c cs = 0 ∨ leadRun c cs = 1 := by omega
        rcases hk1 with hk | hk
        · rw [hk] at ihrest ⊢
          rw [List.drop_zero] at ihrest
          rw [ihrest]
          simp [List.replicate_succ, hws]
        · rw [hk] at ihrest ⊢
          have hcs : cs = c :: cs.drop 1 := by
            conv_lhs => rw [leadRun_decomp c cs]
            rw [hk]
            rfl
          conv_lhs => rw [hcs]
          have hlr0 : leadRun c (cs.drop 1) = 0 := by
            have h0 := leadRun_drop_self c cs
            rw [hk] at h0
            exact h0
          rw [clearJunkAux_cons, hlr0, if_neg (by omega), if_neg hws, ihrest]
          simp [List.replicate_succ, hws]
termination_by l.length

/-- The klondike normalization agrees with the (amended) spec-side
description on every string. -/
theorem clear_junk_eq_specJunkNorm (s : String) :
    clear_junk s = specJunkNorm s := by
  unfold clear_junk specJunkNorm
  rw [clearJunkAux_eq_specJunkRuns]

end Klondiff

namespace Klondiff

/-!
Claim theorems.  Each theorem settles one claim of the specification
against the embedded source.
-/

/-- Claim C1: the claim says `get_matching_blocks()` / `get_opcodes()`
never raise on valid inputs, including pairs whose lines are all equal
after normalization (in particular `A == B`).  The code contradicts
this: on `A = B = ["x"]` the unguarded prefix loop
`while a_ws[start_line] == b_ws[start_line]` runs past the end of the
list and raises `IndexError` in the klondike matcher (the patience
matcher's `get_opcodes` runs the same loop via
`get_nearly_matching_blocks`).  This theorem evaluates the embedded
code at that failing input. -/
theorem claim_C1_equal_input_raises :
    klondikeGetMatchingBlocks ["x"] ["x"] = Except.error "IndexError" := by
  rfl

/-- Claim C2: the claim says every opcode of a returned opcode list
satisfies its tag constraint, in particular `delete` implies `j1 == j2`.
On `a = ["c", "c", "u", "x"]`, `b = ["u", "c"]` the backward anchor
growth wraps around via Python negative indexing and commits the block
`(1, -1, 2)`; `get_opcodes` then returns (its own sanity check passes)
with the opcode `('delete', 0, 1, 0, -1)` whose `j1 = 0 ≠ j2 = -1`,
contradicting the claim and the source's docstring
("Note that j1==j2 in this case"). -/
theorem claim_C2_delete_tag_violated :
    ∃ ops, klondikeGetOpcodes ["c", "c", "u", "x"] ["u", "c"] = Except.ok ops ∧
      ∃ op ∈ ops, op.1 = "delete" ∧ op.2.2.2.1 ≠ op.2.2.2.2 := by
  refine ⟨[("delete", 0, 1, 0, -1), ("equal", 1, 3, -1, 1), ("replace", 3, 4, 1, 2)],
    by rfl, ?_⟩
  decide

/-- Claim C3: the claim says every `equal` opcode has byte-equal raw
slices `A[i1:i2] == B[j1:j2]`.  On `a = ["c", "c", "u", "x"]`,
`b = ["u", "c"]` the returned list contains `('equal', 1, 3, -1, 1)`:
under Python slice semantics `a[1:3] = ["c", "u"]` while `b[-1:1] = []`,
contradicting the claim and the source's docstring
("'equal': a[i1:i2] == b[j1:j2]"). -/
theorem claim_C3_equal_slices_differ :
    ∃ ops, klondikeGetOpcodes ["c", "c", "u", "x"] ["u", "c"] = Except.ok ops ∧
      ("equal", 1, 3, -1, 1) ∈ ops ∧
      pySlice ["c", "c", "u", "x"] 1 (some 3) ≠ pySlice ["u", "c"] (-1) (some 1) := by
  refine ⟨[("delete", 0, 1, 0, -1), ("equal", 1, 3, -1, 1), ("replace", 3, 4, 1, 2)],
    by rfl, by decide, by decide⟩

/-- Claim C4, counterexample: the claim says a run of `k ≥ 3` identical
characters keeps exactly one copy ("a run of five dashes normalizes to a
single dash"); the regex `(.)\1*(?=\1{2})` keeps exactly two copies
(`clear_junk("-----") == "--"`).  The claim also says every whitespace
character is deleted; the class `[ \t\r\n]` does not cover form feed
(`clear_junk("\x0c") == "\x0c"`). -/
theorem claim_C4_counterexample :
    clear_junk "-----" = "--" ∧ "--" ≠ "-" ∧ clear_junk "\x0c" = "\x0c" := by
  refine ⟨by decide, by decide, by decide⟩

/-- Claim C4 as amended: the normalization deletes every whitespace
character of the class space, tab, carriage return, newline, and keeps
exactly two copies of any maximal run of `k ≥ 3` identical characters
(`specJunkNorm` spells this out run by run). -/
theorem claim_C4_amended_normalization (s : String) : clear_junk s = specJunkNorm s :=
  clear_junk_eq_specJunkNorm s

/-- Claim C5: the claim says every block before the sentinel has
`n ≥ 1` and the sentinel is the only block with `n == 0`.  On
`a = ["k0", "\n", "k0", "u", "z", "v", "w"]`,
`b = ["k0", "u", "y", "v", "\n"]` the blank-line reconciliation shrinks
the prefix block to size `0`: `get_matching_blocks` returns
`[(0,0,0), (2,0,2), (5,3,1), (7,5,0)]`, whose first block has `n = 0`
but is not the sentinel, contradicting the claim and the source's
docstring ("The last triple is a dummy ... and is the only triple with
n==0"). -/
theorem claim_C5_zero_block_before_sentinel :
    ∃ bs, klondikeGetMatchingBlocks ["k0", "\n", "k0", "u", "z", "v", "w"]
        ["k0", "u", "y", "v", "\n"] = Except.ok bs ∧
      ∃ blk ∈ bs.dropLast, blk.2.2 = 0 := by
  refine ⟨[(0, 0, 0), (2, 0, 2), (5, 3, 1), (7, 5, 0)], by rfl, ?_⟩
  decide

/-- Claim C7: the claim says a whitespace-only reformatting yields a
single equal block plus the sentinel, and in particular klondike blocks
`[(0,0,1),(1,1,0)]` on `A = ["foo(x,y)\n"]`, `B = ["foo( x , y )\n"]`.
Both lines normalize to the same string, so the unguarded prefix loop
runs off the end and the matcher raises `IndexError` instead (the
patience matcher's `get_opcodes` raises on the same loop, so its claimed
`[(replace,0,1,0,1)]` is not produced either). -/
theorem claim_C7_whitespace_invariance_raises :
    clear_junk "foo(x,y)\n" = clear_junk "foo( x , y )\n" ∧
    klondikeGetMatchingBlocks ["foo(x,y)\n"] ["foo( x , y )\n"] =
      Except.error "IndexError" := by
  refine ⟨by decide, by rfl⟩

end Klondiff

namespace Klondiff

/-!
Embedding of `unified_diff` from `klonpatiencediff.py`.  The
`sequencematcher(None, a, b).get_grouped_opcodes(n)` collaborator is
abstracted into the `groups` parameter (the list of hunks it yields);
the `function_regexp` parameter becomes the predicate `fmatch`
(`re.match` of the default `r'^\w'` is `reMatchW`; a falsy regexp is the
constantly-false predicate, which leaves `function_lines` empty exactly
as the source does).
-/

/-- `_format_range_unified(start, stop)`. -/
def format_range_unified (start stop : Int) : String :=
  let beginning := start + 1
  let length := stop - start
  if length = 1 then toString beginning
  else
    let beginning := if length = 0 then beginning - 1 else beginning
    toString beginning ++ "," ++ toString length

/-- `re.match(r'^\w', line)` as a Boolean (Python 2 byte-string `\w`). -/
def reMatchW (s : String) : Bool :=
  match s.data with
  | [] => false
  | c :: _ => c.isAlphanum || c = '_'

/-- `line.rstrip()`. -/
def pyRstrip (s : String) : String :=
  ⟨(s.data.reverse.dropWhile (fun c =>
      c = ' ' || c = '\t' || c = '\n' || c = '\r' || c = '\x0b' || c = '\x0c')).reverse⟩

/-- `function_lines = [k for k, line in enumerate(a) if function_regexp.match(line)]`. -/
def functionLinesAux (fmatch : String → Bool) : List String → Nat → List Nat
  | [], _ => []
  | s :: rest, k =>
    if fmatch s then k :: functionLinesAux fmatch rest (k + 1)
    else functionLinesAux fmatch rest (k + 1)

def functionLines (fmatch : String → Bool) (a : List String) : List Nat :=
  functionLinesAux fmatch a 0

/-- The `while current_function < len(function_lines) and
function_lines[current_function] < first[1] + n` advance. -/
def advanceCF (fls : List Nat) (limit : Int) : Nat → Nat → Nat
  | 0, cf => cf
  | fuel + 1, cf =>
    if cf < fls.length ∧ ((fls.getD cf 0 : Int) < limit) then
      advanceCF fls limit fuel (cf + 1)
    else cf

/-- Body lines of one opcode inside a hunk. -/
def renderOp (a b : List String) (op : Opcode) : List String :=
  if op.1 = "equal" then
    (pySlice a op.2.1 (some op.2.2.1)).map (fun line => " " ++ line)
  else
    (if op.1 = "replace" ∨ op.1 = "delete" then
      (pySlice a op.2.1 (some op.2.2.1)).map (fun line => "-" ++ line)
    else []) ++
    (if op.1 = "replace" ∨ op.1 = "insert" then
      (pySlice b op.2.2.2.1 (some op.2.2.2.2)).map (fun line => "+" ++ line)
    else [])

/-- One group of the `for group in ...` loop: the `@@` header (with the
optional function suffix) followed by the body lines.  Returns the
updated `current_function` as well. -/
def processGroup (a b : List String) (n : Int) (lineterm : String)
    (fls : List Nat) (cf : Nat) (group : List Opcode) :
    Except String (Nat × List String) := do
  let first ← pyGet group 0
  let last ← pyGet group (-1)
  let file1_range := format_range_unified first.2.1 last.2.2.1
  let file2_range := format_range_unified first.2.2.2.1 last.2.2.2.2
  let r ←
    if fls ≠ [] then do
      let cf := advanceCF fls (first.2.1 + n) fls.length cf
      if 0 < cf then do
        let line ← pyGet a (fls.getD (cf - 1) 0)
        .ok (cf, " " ++ pyRstrip line)
      else .ok (cf, "")
    else .ok (cf, "")
  let header := "@@ -" ++ file1_range ++ " +" ++ file2_range ++ " @@" ++ r.2 ++ lineterm
  .ok (r.1, header :: (group.map (renderOp a b)).flatten)

/-- The `--- ` header line. -/
def headerFrom (fromfile fromfiledate lineterm : String) : String :=
  "--- " ++ fromfile ++ (if fromfiledate ≠ "" then "\t" ++ fromfiledate else "") ++ lineterm

/-- The `+++ ` header line. -/
def headerTo (tofile tofiledate lineterm : String) : String :=
  "+++ " ++ tofile ++ (if tofiledate ≠ "" then "\t" ++ tofiledate else "") ++ lineterm

/-- The main generator loop over groups, threading `started` and
`current_function`. -/
def udLoop (a b : List String) (fromfile tofile fromfiledate tofiledate : String)
    (n : Int) (lineterm : String) (fls : List Nat) :
    List (List Opcode) → Bool → Nat → Except String (List String)
  | [], _, _ => .ok []
  | g :: gs, started, cf => do
    let hdr :=
      if ¬started then
        [headerFrom fromfile fromfiledate lineterm, headerTo tofile tofiledate lineterm]
      else []
    let r ← processGroup a b n lineterm fls cf g
    let rest ← udLoop a b fromfile tofile fromfiledate tofiledate n lineterm fls gs true r.1
    .ok (hdr ++ r.2 ++ rest)

/-- `unified_diff(a, b, fromfile, tofile, fromfiledate, tofiledate, n,
lineterm, sequencematcher, function_regexp)` with the grouped opcodes
supplied as `groups`. -/
def unified_diff (a b : List String) (fromfile tofile fromfiledate tofiledate : String)
    (n : Int) (lineterm : String) (fmatch : String → Bool)
    (groups : List (List Opcode)) : Except String (List String) :=
  udLoop a b fromfile tofile fromfiledate tofiledate n lineterm
    (functionLines fmatch a) groups false 0

end Klondiff

namespace Klondiff

/-- Claim C10: `unified_diff` emits the `---` and `+++` header lines
exactly once, immediately before the first hunk: on empty grouped
opcodes it yields no output at all, and on non-empty groups every
successful output is the two header lines followed by the hunk
rendering (`udLoop` with `started = True`), which emits no further
headers. -/
theorem claim_C10_header_once
    (a b : List String) (ff tf fd td : String) (n : Int) (lt : String)
    (fmatch : String → Bool) (groups : List (List Opcode)) :
    unified_diff a b ff tf fd td n lt fmatch [] = Except.ok [] ∧
    (groups ≠ [] → ∀ out,
      unified_diff a b ff tf fd td n lt fmatch groups = Except.ok out →
      ∃ rest, out = headerFrom ff fd lt :: headerTo tf td lt :: rest ∧
        udLoop a b ff tf fd td n lt (functionLines fmatch a) groups true 0 =
          Except.ok rest) := by
  constructor
  · rfl
  · intro hne out hout
    match groups, hne with
    | g :: gs, _ =>
      cases hpg : processGroup a b n lt (functionLines fmatch a) 0 g with
      | error e =>
        simp [unified_diff, udLoop, Bind.bind, Except.bind, hpg] at hout
      | ok r =>
        cases hrest : udLoop a b ff tf fd td n lt (functionLines fmatch a) gs true r.1 with
        | error e =>
          simp [unified_diff, udLoop, Bind.bind, Except.bind, hpg, hrest] at hout
        | ok rest2 =>
          simp only [unified_diff, udLoop, Bind.bind, Except.bind, hpg, hrest,
            Except.ok.injEq] at hout
          refine ⟨r.2 ++ rest2, ?_, ?_⟩
          · rw [← hout]
            simp
          · simp only [udLoop, Bind.bind, Except.bind, hpg, hrest]
            simp

end Klondiff

namespace Klondiff

/-- Witness for claim C10 at a concrete one-hunk input. -/
theorem claim_C10_witness :
    ∃ rest, (["--- A\n", "+++ B\n", "@@ -1 +1 @@ x\n", " x\n"] : List String) =
        headerFrom "A" "" "\n" :: headerTo "B" "" "\n" :: rest ∧
      udLoop ["x\n"] ["x\n"] "A" "B" "" "" 3 "\n"
        (functionLines reMatchW ["x\n"]) [[("equal", 0, 1, 0, 1)]] true 0 =
        Except.ok rest :=
  (claim_C10_header_once ["x\n"] ["x\n"] "A" "B" "" "" 3 "\n" reMatchW
    [[("equal", 0, 1, 0, 1)]]).2 (by decide)
    ["--- A\n", "+++ B\n", "@@ -1 +1 @@ x\n", " x\n"] (by rfl)

end Klondiff

namespace Klondiff

/-!
Embedding of `DiffWriter.parse_changed_line` from `colordiff.py`.  The
rendering callback `self.colorstring(type, s, check)` (which formats via
the external `terminal` module and the configured colors) is abstracted
as the parameter `cs : String → String → String`; the `check_style`
argument does not affect which string is produced and is dropped.
-/

/-- Python string slicing `s[i:j]`. -/
def strSlice (s : String) (i : Int) (j : Option Int) : String :=
  ⟨pySlice s.data i j⟩

/-- `max(m[2] for m in s.get_matching_blocks())`: the block list always
contains the size-0 sentinel, so folding `max` from 0 equals Python's
`max`. -/
def maxBlockSize (bs : List (Nat × Nat × Nat)) : Nat :=
  bs.foldl (fun acc m => max acc m.2.2) 0

/-- `''.join(parts)`. -/
def joinAll (parts : List String) : String :=
  parts.foldl (fun acc s => acc ++ s) ""

/-- The `for n, m in enumerate(matches[:-1])` loop of the highlight
branch, walking consecutive pairs of kept matches and emitting, per
pair, the `oldsame`/`newsame` segment for the match and the
`oldtext`/`newtext` segment for the gap up to the next match. -/
def pclSegs (cs : String → String → String) (ot nt : String) :
    List ((Nat × Nat × Nat) × (Nat × Nat × Nat)) → List String × List String
  | [] => ([], [])
  | (m, mn) :: rest =>
    let segs := pclSegs cs ot nt rest
    (cs "oldsame" (strSlice ot m.1 (some (m.1 + m.2.2))) ::
       cs "oldtext" (strSlice ot (m.1 + m.2.2) (some mn.1)) :: segs.1,
     cs "newsame" (strSlice nt m.2.1 (some (m.2.1 + m.2.2))) ::
       cs "newtext" (strSlice nt (m.2.1 + m.2.2) (some mn.2.1)) :: segs.2)

/-- The highlight branch of `parse_changed_line`: re-colored markers,
the changed head segments up to the first kept match, then the
same/changed segments of `pclSegs`. -/
def renderHighlight (cs : String → String → String) (ot nt : String)
    (ms : List (Nat × Nat × Nat)) (m0 : Nat × Nat × Nat) : List String :=
  let segs := pclSegs cs ot nt (ms.zip ms.tail)
  [joinAll (cs "oldtext" "-" :: cs "oldtext" (strSlice ot 0 (some m0.1)) :: segs.1),
   joinAll (cs "newtext" "+" :: cs "newtext" (strSlice nt 0 (some m0.2.1)) :: segs.2)]

/-- `DiffWriter.parse_changed_line(oldtext, newtext)`. -/
def parse_changed_line (cs : String → String → String) (oldtext newtext : String) :
    Except String (List String) := do
  let blocks ← Difflib.get_matching_blocks (strSlice oldtext 1 none).data
    (strSlice newtext 1 none).data
  if 5 ≤ maxBlockSize blocks then do
    let ms := blocks.filter (fun m => m.2.2 = 0 || 3 ≤ m.2.2)
    let ot := strSlice oldtext 1 none
    let nt := strSlice newtext 1 none
    let m0 ← pyGet ms 0
    .ok (renderHighlight cs ot nt ms m0)
  else
    .ok [cs "oldtext" oldtext, cs "newtext" newtext]

end Klondiff

namespace Klondiff

/-- A concrete injective rendering callback used in closed statements
about `parse_changed_line`. -/
def csTag (ty s : String) : String := "<" ++ ty ++ ">" ++ s

/-- Any bound reached by the running maximum was reached by some block
(or by the initial accumulator). -/
theorem maxBlockSize_mem (k : Nat) :
    ∀ (bs : List (Nat × Nat × Nat)) (acc : Nat),
      k ≤ bs.foldl (fun a m => max a m.2.2) acc →
      k ≤ acc ∨ ∃ m ∈ bs, k ≤ m.2.2 := by
  intro bs
  induction bs with
  | nil => exact fun acc h => Or.inl h
  | cons m bs ih =>
    intro acc h
    rcases ih (max acc m.2.2) h with h1 | ⟨m2, hm2, hk⟩
    · rcases le_max_iff.mp h1 with h2 | h2
      · exact Or.inl h2
      · exact Or.inr ⟨m, List.mem_cons_self m bs, h2⟩
    · exact Or.inr ⟨m2, List.mem_cons_of_mem m hm2, hk⟩

end Klondiff

namespace Klondiff

set_option maxRecDepth 8000 in
/-- Claim C9, counterexample: the claim ties the highlight decision to
the longest matching substring of the marker-stripped lines.  On
`oldline = "-xy" + "a"*198`, `newline = "+pq" + "a"*198` the stripped
lines share the substring `"aaaaa"` (and in fact a 198-character one),
yet difflib's autojunk heuristic marks `'a'` popular (it occurs more
than `len(b)//100 + 1` times in a line of at least 200 characters), the
matcher reports no block of size ≥ 5, and `parse_changed_line` returns
the whole-line-colored pair instead of highlighting. -/
theorem claim_C9_counterexample :
    ((strSlice ("-xy" ++ String.mk (List.replicate 198 'a')) 1 none).data.drop 2).take 5 =
      List.replicate 5 'a' ∧
    ((strSlice ("+pq" ++ String.mk (List.replicate 198 'a')) 1 none).data.drop 2).take 5 =
      List.replicate 5 'a' ∧
    (∃ bs, Difflib.get_matching_blocks
        (strSlice ("-xy" ++ String.mk (List.replicate 198 'a')) 1 none).data
        (strSlice ("+pq" ++ String.mk (List.replicate 198 'a')) 1 none).data =
        Except.ok bs ∧ maxBlockSize bs < 5) ∧
    parse_changed_line csTag ("-xy" ++ String.mk (List.replicate 198 'a'))
        ("+pq" ++ String.mk (List.replicate 198 'a')) =
      Except.ok [csTag "oldtext" ("-xy" ++ String.mk (List.replicate 198 'a')),
        csTag "newtext" ("+pq" ++ String.mk (List.replicate 198 'a'))] := by
  refine ⟨by decide, by decide, ⟨[(200, 200, 0)], by rfl, by decide⟩, by rfl⟩

end Klondiff

namespace Klondiff

/-- Claim C9 as amended: the highlighter applies sub-line styling iff
the classical difflib matcher (with its autojunk heuristic) reports a
matching block of length at least 5 on the marker-stripped lines — for
lines shorter than 200 characters this is the longest matching
substring.  When it does not, the two lines come back with only
whole-line old/new coloring; when it does, the rendering keeps exactly
the matches of length 0 (the sentinel) or at least 3 as "same"
segments. -/
theorem claim_C9_amended (cs : String → String → String) (oldtext newtext : String)
    (bs : List (Nat × Nat × Nat))
    (hbs : Difflib.get_matching_blocks (strSlice oldtext 1 none).data
      (strSlice newtext 1 none).data = Except.ok bs) :
    (maxBlockSize bs < 5 →
      parse_changed_line cs oldtext newtext =
        Except.ok [cs "oldtext" oldtext, cs "newtext" newtext]) ∧
    (5 ≤ maxBlockSize bs →
      ∃ m0, pyGet (bs.filter (fun m => m.2.2 = 0 || 3 ≤ m.2.2)) 0 = Except.ok m0 ∧
        parse_changed_line cs oldtext newtext =
          Except.ok (renderHighlight cs (strSlice oldtext 1 none)
            (strSlice newtext 1 none)
            (bs.filter (fun m => m.2.2 = 0 || 3 ≤ m.2.2)) m0)) := by
  constructor
  · intro hlt
    simp [parse_changed_line, Bind.bind, Except.bind, hbs, Nat.not_le.mpr hlt]
  · intro hge
    have hex : ∃ m ∈ bs, 5 ≤ m.2.2 := by
      rcases maxBlockSize_mem 5 bs 0 hge with h0 | hex
      · omega
      · exact hex
    obtain ⟨m, hm, hm5⟩ := hex
    have hmem : m ∈ bs.filter (fun m => m.2.2 = 0 || 3 ≤ m.2.2) := by
      rw [List.mem_filter]
      exact ⟨hm, by simp; omega⟩
    have hne : bs.filter (fun m => m.2.2 = 0 || 3 ≤ m.2.2) ≠ [] :=
      List.ne_nil_of_mem hmem
    match hms : bs.filter (fun m => m.2.2 = 0 || 3 ≤ m.2.2), hne with
    | [], h => exact absurd hms h
    | m0 :: ms, _ =>
      refine ⟨m0, by simp [pyGet, hms], ?_⟩
      simp [parse_changed_line, Bind.bind, Except.bind, hbs, hge, hms, pyGet]

/-- Witness for claim C9 at a concrete highlighted input. -/
theorem claim_C9_amended_witness :
    ∃ m0, pyGet (([(0, 0, 7), (7, 7, 0)] :
        List (Nat × Nat × Nat)).filter (fun m => m.2.2 = 0 || 3 ≤ m.2.2)) 0 =
        Except.ok m0 ∧
      parse_changed_line csTag "-abcdefg" "+abcdefg" =
        Except.ok (renderHighlight csTag (strSlice "-abcdefg" 1 none)
          (strSlice "+abcdefg" 1 none)
          (([(0, 0, 7), (7, 7, 0)] :
            List (Nat × Nat × Nat)).filter (fun m => m.2.2 = 0 || 3 ≤ m.2.2)) m0) :=
  (claim_C9_amended csTag "-abcdefg" "+abcdefg" [(0, 0, 7), (7, 7, 0)] (by rfl)).2
    (by decide)

end Klondiff

namespace Klondiff

/-!
Soundness of `unique_lcs`: every returned pair points at equal elements,
the pairs are strictly increasing in both coordinates, and (for the
maximality claim) the result is a longest chain of uniquely-shared
elements.  The development follows the three phases of the source:
the `index` dict, the `btoa` array, and the patience-sorting loop.
-/

section UniqueLcsProof

variable {α : Type} [DecidableEq α]

theorem alookup_aset_self (m : List (α × β)) (k : α) (v : β) :
    alookup (aset m k v) k = some v := by
  induction m with
  | nil => simp [aset, alookup]
  | cons kv rest ih =>
    by_cases h : k = kv.1
    · simp [aset, alookup, h]
    · simp [aset, alookup, h, ih]

theorem alookup_aset_ne (m : List (α × β)) (k x : α) (v : β) (hx : x ≠ k) :
    alookup (aset m k v) x = alookup m x := by
  induction m with
  | nil => simp [aset, alookup, hx]
  | cons kv rest ih =>
    by_cases h : k = kv.1
    · subst h
      simp [aset, alookup, hx]
    · by_cases h2 : x = kv.1
      · simp [aset, alookup, h, h2]
      · simp [aset, alookup, h, h2, ih]

theorem alookup_mem : ∀ (m : List (α × β)) (x : α) (v : β),
    alookup m x = some v → (x, v) ∈ m
  | [], x, v, h => by simp [alookup] at h
  | (k1, v1) :: rest, x, v, h => by
    rw [show alookup ((k1, v1) :: rest) x
        = if x = k1 then some v1 else alookup rest x from rfl] at h
    by_cases hx : x = k1
    · rw [if_pos hx] at h
      injection h with h2
      subst hx
      subst h2
      exact List.mem_cons_self _ _
    · rw [if_neg hx] at h
      exact List.mem_cons_of_mem _ (alookup_mem rest x v h)

theorem mem_aset : ∀ (m : List (α × β)) (k : α) (v : β) (y : α) (w : β),
    (y, w) ∈ aset m k v → (y, w) = (k, v) ∨ (y, w) ∈ m
  | [], k, v, y, w, h => by
    rw [show aset ([] : List (α × β)) k v = [(k, v)] from rfl] at h
    exact Or.inl (List.mem_singleton.mp h)
  | (k1, v1) :: rest, k, v, y, w, h => by
    rw [show aset ((k1, v1) :: rest) k v
        = if k = k1 then (k1, v) :: rest else (k1, v1) :: aset rest k v from rfl] at h
    by_cases hk : k = k1
    · rw [if_pos hk] at h
      rcases List.mem_cons.mp h with h | h
      · exact Or.inl (by rw [h, hk])
      · exact Or.inr (List.mem_cons_of_mem _ h)
    · rw [if_neg hk] at h
      rcases List.mem_cons.mp h with h | h
      · exact Or.inr (List.mem_cons.mpr (Or.inl h))
      · rcases mem_aset rest k v y w h with h2 | h2
        · exact Or.inl h2
        · exact Or.inr (List.mem_cons_of_mem _ h2)

theorem mem_adel : ∀ (m : List (α × β)) (k : α) (y : α) (w : β),
    (y, w) ∈ adel m k → (y, w) ∈ m
  | [], k, y, w, h => by simp [adel] at h
  | (k1, v1) :: rest, k, y, w, h => by
    rw [show adel ((k1, v1) :: rest) k
        = if k = k1 then rest else (k1, v1) :: adel rest k from rfl] at h
    by_cases hk : k = k1
    · rw [if_pos hk] at h
      exact List.mem_cons_of_mem _ h
    · rw [if_neg hk] at h
      rcases List.mem_cons.mp h with h | h
      · exact List.mem_cons.mpr (Or.inl h)
      · exact List.mem_cons_of_mem _ (mem_adel rest k y w h)

theorem get?_set_ne (γ : Type) : ∀ (l : List γ) (i j : Nat) (v : γ), i ≠ j →
    (l.set i v).get? j = l.get? j
  | [], _, _, _, _ => rfl
  | x :: xs, 0, 0, v, h => absurd rfl h
  | x :: xs, 0, j + 1, v, h => rfl
  | x :: xs, i + 1, 0, v, h => rfl
  | x :: xs, i + 1, j + 1, v, h => get?_set_ne γ xs i j v (by omega)

theorem get?_set_self (γ : Type) : ∀ (l : List γ) (i : Nat) (v : γ), i < l.length →
    (l.set i v).get? i = some v
  | [], i, v, h => by simp at h
  | x :: xs, 0, v, _ => rfl
  | x :: xs, i + 1, v, h => get?_set_self γ xs i v (by simpa using h)

theorem buildIndexAux_sound (a : List α) :
    ∀ (rest : List α) (n : Nat) (acc : List (α × Option Nat)),
      (∀ j, rest.get? j = a.get? (n + j)) →
      (∀ x i, (x, some i) ∈ acc → a.get? i = some x) →
      ∀ x i, (x, some i) ∈ buildIndexAux rest n acc → a.get? i = some x := by
  intro rest
  induction rest with
  | nil => intro n acc _ hacc x i h; exact hacc x i h
  | cons line rest ih =>
    intro n acc hrest hacc x i h
    rw [show buildIndexAux (line :: rest) n acc
        = buildIndexAux rest (n + 1)
            (if (alookup acc line).isSome then aset acc line none
             else aset acc line (some n)) from rfl] at h
    refine ih (n + 1) _ ?_ ?_ x i h
    · intro j
      rw [show n + 1 + j = n + (j + 1) from by omega]
      exact hrest (j + 1)
    intro y m hy
    by_cases hs : (alookup acc line).isSome
    · rw [if_pos hs] at hy
      rcases mem_aset acc line none y (some m) hy with h2 | h2
      · exact absurd (congrArg Prod.snd h2) (by simp)
      · exact hacc y m h2
    · rw [if_neg hs] at hy
      rcases mem_aset acc line (some n) y (some m) hy with h2 | h2
      · have hy2 : y = line := congrArg Prod.fst h2
        have hm : m = n := by
          have := congrArg Prod.snd h2
          simpa using this
        subst hy2
        subst hm
        have h0 := hrest 0
        simpa using h0.symm
      · exact hacc y m h2

theorem buildIndex_sound (a : List α) (x : α) (i : Nat)
    (h : (x, some i) ∈ buildIndex a) : a.get? i = some x :=
  buildIndexAux_sound a a 0 [] (fun j => by simp) (by simp) x i h

theorem buildBtoaAux_sound (a b : List α) :
    ∀ (rest : List α) (pos : Nat) (index : List (α × Option Nat))
      (index2 : List (α × Nat)) (btoa : List (Option Nat)),
      (∀ j, rest.get? j = b.get? (pos + j)) →
      (∀ x i, (x, some i) ∈ index → a.get? i = some x) →
      (∀ p ap, btoa.get? p = some (some ap) → p < pos ∧ a.get? ap = b.get? p) →
      (∀ p ap, btoa.get? p = some (some ap) →
        ∃ x, b.get? p = some x ∧ alookup index2 x = some p) →
      (∀ x p, alookup index2 x = some p → b.get? p = some x) →
      ∃ index2f : List (α × Nat),
        (∀ p ap, (buildBtoaAux rest pos index index2 btoa).get? p = some (some ap) →
          a.get? ap = b.get? p) ∧
        (∀ p ap, (buildBtoaAux rest pos index index2 btoa).get? p = some (some ap) →
          ∃ x, b.get? p = some x ∧ alookup index2f x = some p) ∧
        (∀ x p, alookup index2f x = some p → b.get? p = some x) := by
  intro rest
  induction rest with
  | nil =>
    intro pos index index2 btoa _ _ ha hc hd
    exact ⟨index2, fun p ap h => (ha p ap h).2, hc, hd⟩
  | cons line rest ih =>
    intro pos index index2 btoa hrest hidx ha hc hd
    have hline : b.get? pos = some line := by
      have h0 := hrest 0
      simpa using h0.symm
    have hrest2 : ∀ j, rest.get? j = b.get? (pos + 1 + j) := fun j => by
      rw [show pos + 1 + j = pos + (j + 1) from by omega]
      exact hrest (j + 1)
    cases hj : (alookup index line).join with
    | none =>
      simp only [buildBtoaAux, hj]
      exact ih (pos + 1) index index2 btoa hrest2 hidx
        (fun p ap h => ⟨Nat.lt_succ_of_lt (ha p ap h).1, (ha p ap h).2⟩) hc hd
    | some nxt =>
      have hlk : alookup index line = some (some nxt) := Option.join_eq_some.mp hj
      have hanxt : a.get? nxt = some line :=
        hidx line nxt (alookup_mem index line (some nxt) hlk)
      have hsetNone : ∀ (bt : List (Option Nat)) (q : Nat) (ap : Nat),
          (bt.set q none).get? q = some (some ap) → False := by
        intro bt q ap h
        by_cases hlen : q < bt.length
        · rw [get?_set_self _ bt q none hlen] at h
          simp at h
        · have : (bt.set q none).get? q = none := by
            refine List.get?_eq_none.mpr ?_
            rw [List.length_set]
            omega
          rw [this] at h
          simp at h
      cases hj2 : alookup index2 line with
      | some prevPos =>
        simp only [buildBtoaAux, hj, hj2]
        refine ih (pos + 1) (adel index line) index2 (btoa.set prevPos none) hrest2
          (fun x i hm => hidx x i (mem_adel index line x (some i) hm)) ?_ ?_ hd
        · intro p ap h
          by_cases hp : prevPos = p
          · subst hp
            exact absurd h (fun h => hsetNone btoa prevPos ap h)
          · rw [get?_set_ne _ btoa prevPos p none hp] at h
            exact ⟨Nat.lt_succ_of_lt (ha p ap h).1, (ha p ap h).2⟩
        · intro p ap h
          by_cases hp : prevPos = p
          · subst hp
            exact absurd h (fun h => hsetNone btoa prevPos ap h)
          · rw [get?_set_ne _ btoa prevPos p none hp] at h
            exact hc p ap h
      | none =>
        simp only [buildBtoaAux, hj, hj2]
        refine ih (pos + 1) index (aset index2 line pos) (btoa.set pos (some nxt))
          hrest2 hidx ?_ ?_ ?_
        · intro p ap h
          by_cases hp : pos = p
          · subst hp
            by_cases hlen : pos < btoa.length
            · rw [get?_set_self _ btoa pos (some nxt) hlen] at h
              have hap : ap = nxt := by
                injection h with h2
                injection h2 with h3
                omega
              subst hap
              exact ⟨Nat.lt_succ_self pos, by rw [hanxt, hline]⟩
            · have hnone : (btoa.set pos (some nxt)).get? pos = none := by
                refine List.get?_eq_none.mpr ?_
                rw [List.length_set]
                omega
              rw [hnone] at h
              simp at h
          · rw [get?_set_ne _ btoa pos p (some nxt) hp] at h
            exact ⟨Nat.lt_succ_of_lt (ha p ap h).1, (ha p ap h).2⟩
        · intro p ap h
          by_cases hp : pos = p
          · subst hp
            exact ⟨line, hline, by rw [alookup_aset_self]⟩
          · rw [get?_set_ne _ btoa pos p (some nxt) hp] at h
            obtain ⟨x, hx, hx2⟩ := hc p ap h
            refine ⟨x, hx, ?_⟩
            by_cases hxl : x = line
            · subst hxl
              rw [hj2] at hx2
              simp at hx2
            · rw [alookup_aset_ne index2 line x pos hxl]
              exact hx2
        · intro x p hxp
          by_cases hxl : x = line
          · subst hxl
            rw [alookup_aset_self] at hxp
            injection hxp with h2
            subst h2
            exact hline
          · rw [alookup_aset_ne index2 line x pos hxl] at hxp
            exact hd x p hxp

theorem buildBtoa_length (a b : List α) : (buildBtoa a b).length = b.length := by
  have key : ∀ (rest : List α) (pos : Nat) (index : List (α × Option Nat))
      (index2 : List (α × Nat)) (btoa : List (Option Nat)),
      (buildBtoaAux rest pos index index2 btoa).length = btoa.length := by
    intro rest
    induction rest with
    | nil => intro pos index index2 btoa; rfl
    | cons line rest ih =>
      intro pos index index2 btoa
      cases hj : (alookup index line).join with
      | none => simp only [buildBtoaAux, hj]; exact ih ..
      | some nxt =>
        cases hj2 : alookup index2 line with
        | some prevPos =>
          simp only [buildBtoaAux, hj, hj2]
          rw [ih ..]
          exact List.length_set ..
        | none =>
          simp only [buildBtoaAux, hj, hj2]
          rw [ih ..]
          exact List.length_set ..
  rw [buildBtoa, key]
  exact List.length_replicate ..

theorem buildBtoa_facts (a b : List α) :
    (∀ p ap, (buildBtoa a b).get? p = some (some ap) → a.get? ap = b.get? p) ∧
    (∀ p1 p2 ap, (buildBtoa a b).get? p1 = some (some ap) →
      (buildBtoa a b).get? p2 = some (some ap) → p1 = p2) := by
  have hrep : ∀ p ap, (List.replicate b.length (none : Option Nat)).get? p
      = some (some ap) → False := by
    intro p ap h
    rcases List.get?_eq_some.mp h with ⟨hlt, hget⟩
    rw [List.get_replicate] at hget
    simp at hget
  obtain ⟨i2f, hA, hC, hD⟩ := buildBtoaAux_sound a b b 0 (buildIndex a) []
    (List.replicate b.length none) (fun j => by simp)
    (fun x i hm => buildIndex_sound a x i hm)
    (fun p ap h => absurd h (fun h => hrep p ap h))
    (fun p ap h => absurd h (fun h => hrep p ap h))
    (fun x p h => by simp [alookup] at h)
  refine ⟨hA, ?_⟩
  intro p1 p2 ap h1 h2
  obtain ⟨x1, hb1, hl1⟩ := hC p1 ap h1
  obtain ⟨x2, hb2, hl2⟩ := hC p2 ap h2
  have hx : x1 = x2 := by
    have e1 := hA p1 ap h1
    have e2 := hA p2 ap h2
    rw [hb1] at e1
    rw [hb2] at e2
    rw [e1] at e2
    injection e2
  subst hx
  rw [hl1] at hl2
  injection hl2

/-- A backpointer chain of length `L` ending at b-position `j`, whose
stream value there is `ap`; positions and values strictly decrease along
the chain. -/
inductive Chained (btoa bptr : List (Option Nat)) : Nat → Nat → Nat → Prop where
  | one (j ap : Nat) (h1 : btoa.get? j = some (some ap))
      (h2 : bptr.get? j = some none) : Chained btoa bptr j ap 1
  | more (j ap j2 ap2 L : Nat) (h1 : btoa.get? j = some (some ap))
      (h2 : bptr.get? j = some (some j2)) (h3 : Chained btoa bptr j2 ap2 L)
      (h4 : j2 < j) (h5 : ap2 < ap) : Chained btoa bptr j ap (L + 1)

theorem Chained.pos_lt {btoa bptr : List (Option Nat)} {j ap L : Nat}
    (h : Chained btoa bptr j ap L) : j < btoa.length := by
  cases h with
  | one j ap h1 h2 => exact (List.get?_eq_some.mp h1).1
  | more j ap j2 ap2 L h1 h2 h3 h4 h5 => exact (List.get?_eq_some.mp h1).1

theorem Chained.set_above {btoa bptr : List (Option Nat)} {j ap L : Nat}
    (h : Chained btoa bptr j ap L) (t : Nat) (v : Option Nat) (hj : j < t) :
    Chained btoa (bptr.set t v) j ap L := by
  induction h with
  | one j ap h1 h2 =>
    exact Chained.one j ap h1 (by rw [get?_set_ne _ bptr t j v (by omega)]; exact h2)
  | more j ap j2 ap2 L h1 h2 h3 h4 h5 ih =>
    exact Chained.more j ap j2 ap2 L h1
      (by rw [get?_set_ne _ bptr t j v (by omega)]; exact h2)
      (ih (by omega)) h4 h5

/-- A strictly increasing chain of valid stream pairs `(bpos, apos)`
over positions `< t`, ending at `(p, ap)`, of length `L`. -/
inductive EndChain (btoa : List (Option Nat)) (t : Nat) : Nat → Nat → Nat → Prop where
  | one (p ap : Nat) (hp : p < t) (h : btoa.get? p = some (some ap)) :
      EndChain btoa t p ap 1
  | more (p ap p2 ap2 L : Nat) (hp : p < t) (h : btoa.get? p = some (some ap))
      (h3 : EndChain btoa t p2 ap2 L) (h4 : p2 < p) (h5 : ap2 < ap) :
      EndChain btoa t p ap (L + 1)

theorem EndChain.mono {btoa : List (Option Nat)} {t p ap L : Nat}
    (h : EndChain btoa t p ap L) (t2 : Nat) (ht : t ≤ t2) :
    EndChain btoa t2 p ap L := by
  induction h with
  | one p ap hp hv => exact EndChain.one p ap (by omega) hv
  | more p ap p2 ap2 L hp hv h3 h4 h5 ih =>
    exact EndChain.more p ap p2 ap2 L (by omega) hv ih h4 h5

theorem EndChain.restrict {btoa : List (Option Nat)} {t p ap L : Nat}
    (h : EndChain btoa (t + 1) p ap L) (hne : ∀ v, btoa.get? t ≠ some (some v)) :
    EndChain btoa t p ap L := by
  induction h with
  | one p ap hp hv =>
    refine EndChain.one p ap ?_ hv
    rcases Nat.lt_succ_iff_lt_or_eq.mp hp with h2 | h2
    · exact h2
    · subst h2; exact absurd hv (hne ap)
  | more p ap p2 ap2 L hp hv h3 h4 h5 ih =>
    refine EndChain.more p ap p2 ap2 L ?_ hv ih h4 h5
    rcases Nat.lt_succ_iff_lt_or_eq.mp hp with h2 | h2
    · exact h2
    · subst h2; exact absurd hv (hne ap)

theorem bisect_cons (p : Nat) (ps : List Nat) (x : Nat) :
    bisect (p :: ps) x = if p ≤ x then bisect ps x + 1 else 0 := by
  by_cases h : p ≤ x
  · simp [bisect, List.takeWhile, h]
  · simp [bisect, List.takeWhile, h]

theorem bisect_le_length (piles : List Nat) (x : Nat) :
    bisect piles x ≤ piles.length := by
  induction piles with
  | nil => simp [bisect]
  | cons p ps ih =>
    rw [bisect_cons]
    by_cases h : p ≤ x
    · simp only [if_pos h, List.length_cons]
      omega
    · simp [if_neg h]

theorem bisect_before (piles : List Nat) (x : Nat) :
    ∀ i ai, i < bisect piles x → piles.get? i = some ai → ai ≤ x := by
  induction piles with
  | nil => simp [bisect]
  | cons p ps ih =>
    intro i ai hi hget
    rw [bisect_cons] at hi
    by_cases h : p ≤ x
    · rw [if_pos h] at hi
      cases i with
      | zero =>
        injection hget with h2
        omega
      | succ i => exact ih i ai (by omega) hget
    · rw [if_neg h] at hi
      omega

theorem bisect_at (piles : List Nat) (x : Nat) :
    ∀ v, piles.get? (bisect piles x) = some v → x < v := by
  induction piles with
  | nil => simp [bisect]
  | cons p ps ih =>
    intro v hget
    rw [bisect_cons] at hget
    by_cases h : p ≤ x
    · rw [if_pos h] at hget
      exact ih v hget
    · rw [if_neg h] at hget
      injection hget with h2
      omega

theorem get?_getD (l : List Nat) (i : Nat) (h : i < l.length) :
    l.get? i = some (l.getD i 0) := by
  rw [List.getD_eq_get?]
  rcases List.get?_eq_get h with hv
  rw [hv]
  rfl

theorem bisect_lower (piles : List Nat) (x : Nat)
    (sorted : ∀ i j ai aj, i < j → piles.get? i = some ai →
      piles.get? j = some aj → ai < aj)
    (m am : Nat) (hm : piles.get? m = some am) (ham : am ≤ x) :
    m < bisect piles x := by
  by_contra hcon
  push_neg at hcon
  have hlen : m < piles.length := (List.get?_eq_some.mp hm).1
  have hbl : bisect piles x < piles.length := by omega
  have hv : piles.get? (bisect piles x) = some (piles.getD (bisect piles x) 0) :=
    get?_getD piles _ hbl
  have hxv := bisect_at piles x _ hv
  rcases Nat.lt_or_ge (bisect piles x) m with h2 | h2
  · have := sorted _ _ _ _ h2 hv hm
    omega
  · have hbm : bisect piles x = m := by omega
    rw [hbm] at hxv
    rw [hbm, hm] at hv
    injection hv with hv2
    omega

theorem patK_eq_bisect (st : PatState) (ap : Nat)
    (sorted : ∀ i j ai aj, i < j → st.piles.get? i = some ai →
      st.piles.get? j = some aj → ai < aj)
    (k_lt : st.piles ≠ [] → st.k < st.piles.length) :
    patK st ap = bisect st.piles ap := by
  unfold patK
  by_cases h1 : st.piles ≠ [] ∧ st.piles.getD (st.piles.length - 1) 0 < ap
  · rw [if_pos h1]
    obtain ⟨hne, hlast⟩ := h1
    have hlen : 0 < st.piles.length := List.length_pos.mpr hne
    have hget := get?_getD st.piles (st.piles.length - 1) (by omega)
    refine Nat.le_antisymm ?_ (bisect_le_length ..)
    by_contra hcon
    push_neg at hcon
    have hbl : bisect st.piles ap < st.piles.length := hcon
    have hv := get?_getD st.piles (bisect st.piles ap) hbl
    have hxv := bisect_at st.piles ap _ hv
    rcases Nat.lt_or_ge (bisect st.piles ap) (st.piles.length - 1) with h2 | h2
    · have := sorted _ _ _ _ h2 hv hget
      omega
    · have hbm : bisect st.piles ap = st.piles.length - 1 := by omega
      rw [hbm] at hxv
      rw [hbm, hget] at hv
      injection hv with hv2
      omega
  · rw [if_neg h1]
    by_cases h2 : st.piles ≠ [] ∧ st.piles.getD st.k 0 < ap ∧
        (st.k = st.piles.length - 1 ∨ ap < st.piles.getD (st.k + 1) 0)
    · rw [if_pos h2]
      obtain ⟨hne, hkv, hnext⟩ := h2
      have hkl := k_lt hne
      have hgk := get?_getD st.piles st.k hkl
      have hlow : st.k < bisect st.piles ap :=
        bisect_lower st.piles ap sorted st.k _ hgk (by omega)
      have hup : bisect st.piles ap ≤ st.k + 1 := by
        rcases hnext with hEq | hLt
        · have := bisect_le_length st.piles ap
          omega
        · by_cases hk1 : st.k + 1 < st.piles.length
          · by_contra hcon
            push_neg at hcon
            have hg1 := get?_getD st.piles (st.k + 1) hk1
            have := bisect_before st.piles ap (st.k + 1) _ hcon hg1
            omega
          · have := bisect_le_length st.piles ap
            omega
      omega
    · rw [if_neg h2]


theorem EndChain.of_lt {btoa : List (Option Nat)} {t2 t p ap L : Nat}
    (h : EndChain btoa t2 p ap L) (hp : p < t) : EndChain btoa t p ap L := by
  induction h with
  | one q aq hq hv => exact EndChain.one q aq hp hv
  | more q aq p2 ap2 L hq hv h3 h4 h5 ih =>
    exact EndChain.more q aq p2 ap2 L hp hv (ih (by omega)) h4 h5

theorem EndChain.len_pos {btoa : List (Option Nat)} {t p ap L : Nat}
    (h : EndChain btoa t p ap L) : 0 < L := by
  cases h <;> omega

theorem EndChain.end_lt {btoa : List (Option Nat)} {t p ap L : Nat}
    (h : EndChain btoa t p ap L) : p < t := by
  cases h with
  | one _ _ hq hv => exact hq
  | more _ _ p2 apx L2 hq hv hsub h4 h5 => exact hq

/-- Invariant of the patience-sorting loop after processing the stream
positions `< t`. -/
structure PatInv (btoa : List (Option Nat)) (t : Nat) (st : PatState) : Prop where
  sorted : ∀ i j ai aj, i < j → st.piles.get? i = some ai →
    st.piles.get? j = some aj → ai < aj
  len_eq : st.piles.length = st.lasts.length
  len_le : st.piles.length ≤ t
  k_lt : st.piles ≠ [] → st.k < st.piles.length
  bptr_len : st.backpointers.length = btoa.length
  untouched : ∀ p, t ≤ p → p < st.backpointers.length →
    st.backpointers.get? p = some none
  entries : ∀ i ap, st.piles.get? i = some ap →
    ∃ bp, st.lasts.get? i = some bp ∧ bp < t ∧ btoa.get? bp = some (some ap) ∧
      Chained btoa st.backpointers bp ap (i + 1)
  opt : ∀ p ap L, EndChain btoa t p ap L →
    ∃ al, st.piles.get? (L - 1) = some al ∧ al ≤ ap

theorem patStep_inv (btoa : List (Option Nat)) (t : Nat) (st : PatState)
    (inv : PatInv btoa t st) (ap : Nat)
    (hcur : btoa.get? t = some (some ap))
    (hfresh : ∀ p v, btoa.get? p = some (some v) → v = ap → p = t) :
    PatInv btoa (t + 1) (patStep st t ap) := by
  have hkb := patK_eq_bisect st ap inv.sorted inv.k_lt
  have htlen : t < btoa.length := (List.get?_eq_some.mp hcur).1
  have htb : t < st.backpointers.length := by rw [inv.bptr_len]; exact htlen
  have hpfresh : ∀ i ai, st.piles.get? i = some ai → ai ≠ ap := by
    intro i ai hi hap
    obtain ⟨bp, _, hbpt, hbv, _⟩ := inv.entries i ai hi
    have := hfresh bp ai hbv hap
    omega
  have hKle : patK st ap ≤ st.piles.length := by
    rw [hkb]
    exact bisect_le_length ..
  -- the new backpointer array
  have hbptr_eq : (patStep st t ap).backpointers =
      (if 0 < patK st ap then
        st.backpointers.set t (some (st.lasts.getD (patK st ap - 1) 0))
      else st.backpointers) := by
    unfold patStep
    by_cases hbr : patK st ap < st.piles.length <;> simp [hbr]
  have hbl2 : (patStep st t ap).backpointers.length = btoa.length := by
    rw [hbptr_eq]
    by_cases h0 : 0 < patK st ap
    · rw [if_pos h0, List.length_set]
      exact inv.bptr_len
    · rw [if_neg h0]
      exact inv.bptr_len
  have huntouched : ∀ p, t + 1 ≤ p → p < (patStep st t ap).backpointers.length →
      (patStep st t ap).backpointers.get? p = some none := by
    intro p hp hpl
    rw [hbl2] at hpl
    rw [hbptr_eq]
    by_cases h0 : 0 < patK st ap
    · rw [if_pos h0, get?_set_ne _ _ t p _ (by omega)]
      exact inv.untouched p (by omega) (by rw [inv.bptr_len]; omega)
    · rw [if_neg h0]
      exact inv.untouched p (by omega) (by rw [inv.bptr_len]; omega)
  have hchain_pres : ∀ bp ap2 L, bp < t →
      Chained btoa st.backpointers bp ap2 L →
      Chained btoa (patStep st t ap).backpointers bp ap2 L := by
    intro bp ap2 L hbp hch
    rw [hbptr_eq]
    by_cases h0 : 0 < patK st ap
    · rw [if_pos h0]
      exact hch.set_above t _ hbp
    · rw [if_neg h0]
      exact hch
  -- the new chain ending at t, of length patK + 1
  have hchain_new : Chained btoa (patStep st t ap).backpointers t ap (patK st ap + 1) := by
    by_cases h0 : 0 < patK st ap
    · have hk1 : patK st ap - 1 < st.piles.length := by omega
      have hgK := get?_getD st.piles (patK st ap - 1) hk1
      obtain ⟨bp1, hlK, hbp1t, hbv1, hch1⟩ := inv.entries _ _ hgK
      have haK : st.piles.getD (patK st ap - 1) 0 ≤ ap := by
        refine bisect_before st.piles ap _ _ ?_ hgK
        omega
      have haKne := hpfresh _ _ hgK
      have hlastsD : st.lasts.getD (patK st ap - 1) 0 = bp1 := by
        rw [List.getD_eq_get?, hlK]
        rfl
      have hbt : (patStep st t ap).backpointers.get? t = some (some bp1) := by
        rw [hbptr_eq, if_pos h0, hlastsD]
        exact get?_set_self _ _ t _ htb
    
      have hchain1 : Chained btoa (patStep st t ap).backpointers bp1
          (st.piles.getD (patK st ap - 1) 0) (patK st ap - 1 + 1) :=
        hchain_pres _ _ _ hbp1t hch1
      have hK : patK st ap - 1 + 1 = patK st ap := by omega
      rw [hK] at hchain1
      have := Chained.more t ap bp1 _ (patK st ap) hcur hbt hchain1 hbp1t (by omega)
      exact this
    · have hK0 : patK st ap = 0 := by omega
      rw [hK0]
      refine Chained.one t ap hcur ?_
      rw [hbptr_eq, hK0]
      simp only [Nat.lt_irrefl, if_false]
      exact inv.untouched t (le_refl t) htb
  constructor
  case bptr_len => exact hbl2
  case untouched => exact huntouched
  case sorted =>
    by_cases hbr : patK st ap < st.piles.length
    · have hpiles : (patStep st t ap).piles = st.piles.set (patK st ap) ap := by
        unfold patStep
        simp [hbr]
      rw [hpiles]
      intro i j ai aj hij hgi hgj
      by_cases hiK : patK st ap = i
      · subst hiK
        rw [get?_set_self _ _ _ _ hbr] at hgi
        injection hgi with hgi2
        subst hgi2
        rw [get?_set_ne _ _ _ _ _ (by omega)] at hgj
        have hKj := inv.sorted _ _ _ _ hij (get?_getD st.piles _ hbr) hgj
        have := bisect_at st.piles ap _ (by rw [← hkb]; exact get?_getD st.piles _ hbr)
        omega
      · rw [get?_set_ne _ _ _ _ _ hiK] at hgi
        by_cases hjK : patK st ap = j
        · subst hjK
          rw [get?_set_self _ _ _ _ hbr] at hgj
          injection hgj with hgj2
          subst hgj2
          have hle := bisect_before st.piles ap i ai (by rw [← hkb]; exact hij) hgi
          have hne := hpfresh i ai hgi
          omega
        · rw [get?_set_ne _ _ _ _ _ hjK] at hgj
          exact inv.sorted _ _ _ _ hij hgi hgj
    · have hK : patK st ap = st.piles.length := by omega
      have hpiles : (patStep st t ap).piles = st.piles ++ [ap] := by
        unfold patStep
        simp [hbr]
      rw [hpiles]
      intro i j ai aj hij hgi hgj
      have hjlen : j < st.piles.length + 1 := by
        have := (List.get?_eq_some.mp hgj).1
        simpa using this
      have higet : st.piles.get? i = some ai := by
        rw [← hgi, List.get?_append]
        omega
      by_cases hjL : j < st.piles.length
      · rw [List.get?_append hjL] at hgj
        exact inv.sorted _ _ _ _ hij higet hgj
      · have hjeq : j = st.piles.length := by omega
        subst hjeq
        rw [List.get?_concat_length] at hgj
        injection hgj with hgj2
        subst hgj2
        have hle := bisect_before st.piles ap i ai (by rw [← hkb]; omega) higet
        have hne := hpfresh i ai higet
        omega
  case len_eq =>
    have hl := inv.len_eq
    unfold patStep
    by_cases hbr : patK st ap < st.piles.length <;>
      simp [hbr, List.length_set] <;> omega
  case len_le =>
    unfold patStep
    by_cases hbr : patK st ap < st.piles.length <;>
      simp [hbr, List.length_set]
    · have := inv.len_le
      omega
    · have := inv.len_le
      omega
  case k_lt =>
    intro _
    unfold patStep
    by_cases hbr : patK st ap < st.piles.length <;> simp [hbr]
    omega
  case entries =>
    intro i ai hgi
    by_cases hbr : patK st ap < st.piles.length
    · have hpiles : (patStep st t ap).piles = st.piles.set (patK st ap) ap := by
        unfold patStep
        simp [hbr]
      have hlasts : (patStep st t ap).lasts = st.lasts.set (patK st ap) t := by
        unfold patStep
        simp [hbr]
      rw [hpiles] at hgi
      by_cases hiK : patK st ap = i
      · subst hiK
        rw [get?_set_self _ _ _ _ hbr] at hgi
        injection hgi with hgi2
        subst hgi2
        refine ⟨t, ?_, by omega, hcur, hchain_new⟩
        rw [hlasts]
        exact get?_set_self _ _ _ _ (by rw [← inv.len_eq]; exact hbr)
      · rw [get?_set_ne _ _ _ _ _ hiK] at hgi
        obtain ⟨bp, hl, hbt, hbv, hch⟩ := inv.entries i ai hgi
        refine ⟨bp, ?_, by omega, hbv, hchain_pres _ _ _ hbt hch⟩
        rw [hlasts, get?_set_ne _ _ _ _ _ hiK]
        exact hl
    · have hK : patK st ap = st.piles.length := by omega
      have hpiles : (patStep st t ap).piles = st.piles ++ [ap] := by
        unfold patStep
        simp [hbr]
      have hlasts : (patStep st t ap).lasts = st.lasts ++ [t] := by
        unfold patStep
        simp [hbr]
      rw [hpiles] at hgi
      have hilen : i < st.piles.length + 1 := by
        have := (List.get?_eq_some.mp hgi).1
        simpa using this
      by_cases hiL : i < st.piles.length
      · rw [List.get?_append hiL] at hgi
        obtain ⟨bp, hl, hbt, hbv, hch⟩ := inv.entries i ai hgi
        refine ⟨bp, ?_, by omega, hbv, hchain_pres _ _ _ hbt hch⟩
        rw [hlasts, List.get?_append (by rw [← inv.len_eq]; exact hiL)]
        exact hl
      · have hieq : i = st.piles.length := by omega
        subst hieq
        rw [List.get?_concat_length] at hgi
        injection hgi with hgi2
        subst hgi2
        refine ⟨t, ?_, by omega, hcur, ?_⟩
        · rw [hlasts, inv.len_eq, List.get?_concat_length]
        · rw [show st.piles.length + 1 = patK st ap + 1 from by omega]
          exact hchain_new
  case opt =>
    intro p ap2 L hchain
    have hpilesEq : (patStep st t ap).piles =
        (if patK st ap < st.piles.length then st.piles.set (patK st ap) ap
         else st.piles ++ [ap]) := by
      unfold patStep
      by_cases hbr : patK st ap < st.piles.length <;> simp [hbr]
    have hGoalPiles : ∀ m v, (m < st.piles.length → ¬ patK st ap = m →
        st.piles.get? m = some v → (patStep st t ap).piles.get? m = some v) := by
      intro m v hm hne hv
      rw [hpilesEq]
      by_cases hbr : patK st ap < st.piles.length
      · rw [if_pos hbr, get?_set_ne _ _ _ _ _ hne]
        exact hv
      · rw [if_neg hbr, List.get?_append hm]
        exact hv
    have hGoalAtK : (patStep st t ap).piles.get? (patK st ap) = some ap := by
      rw [hpilesEq]
      by_cases hbr : patK st ap < st.piles.length
      · rw [if_pos hbr]
        exact get?_set_self _ _ _ _ hbr
      · rw [if_neg hbr, show patK st ap = st.piles.length from by omega]
        exact List.get?_concat_length ..
    by_cases hpt : p = t
    · subst hpt
      cases hchain with
      | one _ _ hq hv =>
        rw [hcur] at hv
        injection hv with hv2
        injection hv2 with hv3
        subst hv3
        by_cases hK0 : patK st ap = 0
        · refine ⟨ap, ?_, le_refl ap⟩
          rw [show (1 : Nat) - 1 = patK st ap from by omega]
          exact hGoalAtK
        · have h0len : 0 < st.piles.length := by
            have hb := bisect_le_length st.piles ap
            omega
          have hg0 := get?_getD st.piles 0 h0len
          refine ⟨_, hGoalPiles 0 _ h0len hK0 hg0, ?_⟩
          refine bisect_before st.piles ap 0 _ (by omega) hg0
      | more _ _ p2 apx L2 hq hv hsub h4 h5 =>
        rw [hcur] at hv
        injection hv with hv2
        injection hv2 with hv3
        subst hv3
        have hp2t : p2 < p := by omega
        have hsubT := hsub.of_lt hp2t
        obtain ⟨al2, hal2, hle2⟩ := inv.opt p2 apx L2 hsubT
        have hL2pos : 0 < L2 := hsubT.len_pos
        have hlen2 : L2 - 1 < st.piles.length := (List.get?_eq_some.mp hal2).1
        have hlow := bisect_lower st.piles ap inv.sorted (L2 - 1) al2 hal2 (by omega)
        by_cases hKL2 : patK st ap = L2
        · refine ⟨ap, ?_, le_refl ap⟩
          rw [show L2 + 1 - 1 = patK st ap from by omega]
          exact hGoalAtK
        · have hL2len : L2 < st.piles.length := by omega
          have hg := get?_getD st.piles L2 hL2len
          refine ⟨_, hGoalPiles L2 _ hL2len hKL2 hg, ?_⟩
          refine bisect_before st.piles ap L2 _ (by omega) hg
    · have hq2 : p < t := by
        have := hchain.end_lt
        omega
      have hsubT := hchain.of_lt hq2
      obtain ⟨al, hal, hle⟩ := inv.opt p ap2 L hsubT
      have hlen : L - 1 < st.piles.length := (List.get?_eq_some.mp hal).1
      by_cases hKL : patK st ap = L - 1
      · have hlt : ap < al := bisect_at st.piles ap al (by rw [← hkb, hKL]; exact hal)
        refine ⟨ap, ?_, by omega⟩
        rw [show L - 1 = patK st ap from by omega]
        exact hGoalAtK
      · exact ⟨al, hGoalPiles (L - 1) al hlen hKL hal, hle⟩

/-! Counting lemmas used by the `btoa` characterization. -/

theorem count_take_pos (b : List α) (p n : Nat) (x : α)
    (hp : p < n) (hx : b.get? p = some x) : 1 ≤ (b.take n).count x := by
  have hmem : x ∈ b.take n := by
    have : (b.take n).get? p = some x := by
      rw [List.get?_take hp]
      exact hx
    exact List.get?_mem this
  exact List.count_pos_iff.mpr hmem

theorem first_occ_lt (b : List α) (n p : Nat) (x : α)
    (hcnt : 1 ≤ (b.take n).count x) (hzero : (b.take p).count x = 0)
    (hx : b.get? p = some x) : p < n := by
  by_contra hge
  have hnp : n ≤ p := by omega
  obtain ⟨x2, hxq⟩ := List.mem_iff_get?.mp (List.count_pos_iff.mp hcnt)
  have hqlen : x2 < (b.take n).length := (List.get?_eq_some.mp hxq).1
  have hqn : x2 < n := by
    have := List.length_take n b
    omega
  have hbq : b.get? x2 = some x := by
    rw [← List.get?_take hqn]
    exact hxq
  have : 1 ≤ (b.take p).count x := count_take_pos b x2 p x (by omega) hbq
  omega

theorem first_occ_unique (b : List α) (p q : Nat) (x : α)
    (hp : b.get? p = some x) (hq : b.get? q = some x)
    (hp0 : (b.take p).count x = 0) (hq0 : (b.take q).count x = 0) : p = q := by
  by_contra hne
  rcases Nat.lt_or_ge p q with h | h
  · have : 1 ≤ (b.take q).count x := count_take_pos b p q x h hp
    omega
  · have hlt : q < p := by omega
    have : 1 ≤ (b.take p).count x := count_take_pos b q p x hlt hq
    omega

theorem exists_first_occ (b : List α) (x : α) :
    ∀ n, 1 ≤ (b.take n).count x →
      ∃ p, p < n ∧ b.get? p = some x ∧ (b.take p).count x = 0 := by
  intro n
  induction n with
  | zero => intro h; simp at h
  | succ n ih =>
    intro h
    by_cases hn : 1 ≤ (b.take n).count x
    · obtain ⟨p, hp, hx, h0⟩ := ih hn
      exact ⟨p, by omega, hx, h0⟩
    · by_cases hlen : n < b.length
      · obtain ⟨y, hy⟩ : ∃ y, b.get? n = some y := ⟨b.get ⟨n, hlen⟩, List.get?_eq_get hlen⟩
        have htk : b.take (n + 1) = b.take n ++ [y] := by
          rw [List.take_succ]
          have : b[n]? = some y := by
            rw [← List.get?_eq_getElem?]
            exact hy
          rw [this]
          rfl
        have hcnt : (b.take (n + 1)).count x
            = (b.take n).count x + [y].count x := by
          rw [htk, List.count_append]
        by_cases hxy : x = y
        · subst hxy
          exact ⟨n, by omega, hy, by omega⟩
        · have hys : [y].count x = 0 := by
            rw [List.count_eq_zero]
            simp [hxy]
          omega
      · have : b.take (n + 1) = b.take n := by
          rw [List.take_all_of_le (by omega), List.take_all_of_le (by omega)]
        rw [this] at h
        omega

theorem count_one_unique_pos (l : List α) (x : α) (i j : Nat)
    (hcnt : l.count x = 1) (hi : l.get? i = some x) (hj : l.get? j = some x) :
    i = j := by
  have key : ∀ p q, p < q → l.get? p = some x → l.get? q = some x →
      2 ≤ l.count x := by
    intro p q hpq hp hq
    have hql : q < l.length := (List.get?_eq_some.mp hq).1
    have h1 : 1 ≤ (l.take q).count x := count_take_pos l p q x hpq hp
    have h2 : 1 ≤ (l.drop q).count x := by
      have hx : x ∈ l.drop q := by
        have : (l.drop q).get? 0 = some x := by
          rw [List.get?_drop]
          simpa using hq
        exact List.get?_mem this
      exact List.count_pos_iff.mpr hx
    have := List.take_append_drop q l
    calc 2 ≤ (l.take q).count x + (l.drop q).count x := by omega
    _ = ((l.take q) ++ (l.drop q)).count x := (List.count_append ..).symm
    _ = l.count x := by rw [List.take_append_drop]
  by_contra hne
  rcases Nat.lt_or_ge i j with h | h
  · have := key i j h hi hj
    omega
  · have := key j i (by omega) hj hi
    omega

theorem take_count_zero_of_count_one (b : List α) (p : Nat) (x : α)
    (hcnt : b.count x = 1) (hx : b.get? p = some x) :
    (b.take p).count x = 0 := by
  have h2 : 1 ≤ (b.drop p).count x := by
    have hmem : x ∈ b.drop p := by
      have : (b.drop p).get? 0 = some x := by
        rw [List.get?_drop]
        simpa using hx
      exact List.get?_mem this
    exact List.count_pos_iff.mpr hmem
  have hsplit : (b.take p).count x + (b.drop p).count x = b.count x := by
    rw [← List.count_append, List.take_append_drop]
  omega

theorem take_succ_count (b : List α) (pos : Nat) (line : α)
    (h : b.get? pos = some line) (x : α) :
    (b.take (pos + 1)).count x
      = (b.take pos).count x + (if x = line then 1 else 0) := by
  have htk : b.take (pos + 1) = b.take pos ++ [line] := by
    rw [List.take_succ]
    have : b[pos]? = some line := by
      rw [← List.get?_eq_getElem?]
      exact h
    rw [this]
    rfl
  rw [htk, List.count_append]
  by_cases hxy : x = line
  · subst hxy
    rw [if_pos rfl]
    simp
  · rw [if_neg hxy]
    have hz : List.count x [line] = 0 := by
      rw [List.count_eq_zero]
      simp [hxy]
    omega

/-! Key uniqueness of the association lists standing in for Python dicts:
all dicts here are built from the empty dict by `aset`/`adel`, so each key
occurs at most once, giving `adel` its dict `del` semantics. -/

theorem alookup_adel_ne : ∀ (m : List (α × Option Nat)) (k x : α), x ≠ k →
    alookup (adel m k) x = alookup m x
  | [], _, _, _ => rfl
  | (k1, v1) :: rest, k, x, hx => by
    rw [show adel ((k1, v1) :: rest) k
        = if k = k1 then rest else (k1, v1) :: adel rest k from rfl]
    by_cases hk : k = k1
    · rw [if_pos hk]
      subst hk
      rw [show alookup ((k, v1) :: rest) x
          = if x = k then some v1 else alookup rest x from rfl, if_neg hx]
    · rw [if_neg hk]
      rw [show alookup ((k1, v1) :: adel rest k) x
          = if x = k1 then some v1 else alookup (adel rest k) x from rfl]
      rw [show alookup ((k1, v1) :: rest) x
          = if x = k1 then some v1 else alookup rest x from rfl]
      by_cases hx1 : x = k1
      · rw [if_pos hx1, if_pos hx1]
      · rw [if_neg hx1, if_neg hx1]
        exact alookup_adel_ne rest k x hx

theorem mem_keys_aset (m : List (α × Option Nat)) (k : α) (v : Option Nat)
    (x : α) (h : x ∈ (aset m k v).map Prod.fst) :
    x = k ∨ x ∈ m.map Prod.fst := by
  obtain ⟨⟨y, w⟩, hmem, hfst⟩ := List.mem_map.mp h
  rcases mem_aset m k v y w hmem with h2 | h2
  · left
    have : y = k := congrArg Prod.fst h2
    rw [← hfst, this]
  · right
    exact List.mem_map.mpr ⟨(y, w), h2, hfst⟩

theorem keysNodup_aset : ∀ (m : List (α × Option Nat)) (k : α) (v : Option Nat),
    (m.map Prod.fst).Nodup → ((aset m k v).map Prod.fst).Nodup
  | [], k, v, _ => by simp [aset]
  | (k1, v1) :: rest, k, v, h => by
    rw [show aset ((k1, v1) :: rest) k v
        = if k = k1 then (k1, v) :: rest else (k1, v1) :: aset rest k v from rfl]
    simp only [List.map_cons, List.nodup_cons] at h
    by_cases hk : k = k1
    · rw [if_pos hk]
      simp only [List.map_cons, List.nodup_cons]
      exact h
    · rw [if_neg hk]
      simp only [List.map_cons, List.nodup_cons]
      refine ⟨?_, keysNodup_aset rest k v h.2⟩
      intro hmem
      rcases mem_keys_aset rest k v k1 hmem with h2 | h2
      · exact hk h2.symm
      · exact h.1 h2

theorem adel_sublist : ∀ (m : List (α × Option Nat)) (k : α),
    List.Sublist (adel m k) m
  | [], _ => List.Sublist.refl _
  | (k1, v1) :: rest, k => by
    rw [show adel ((k1, v1) :: rest) k
        = if k = k1 then rest else (k1, v1) :: adel rest k from rfl]
    by_cases hk : k = k1
    · rw [if_pos hk]
      exact List.sublist_cons_self _ _
    · rw [if_neg hk]
      exact List.Sublist.cons₂ _ (adel_sublist rest k)

theorem keysNodup_adel (m : List (α × Option Nat)) (k : α)
    (h : (m.map Prod.fst).Nodup) : ((adel m k).map Prod.fst).Nodup :=
  ((adel_sublist m k).map Prod.fst).nodup h

theorem alookup_none_of_not_mem_keys (m : List (α × Option Nat)) (x : α)
    (h : x ∉ m.map Prod.fst) : alookup m x = none := by
  cases halk : alookup m x with
  | none => rfl
  | some v =>
    exact absurd (List.mem_map.mpr ⟨(x, v), alookup_mem m x v halk, rfl⟩) h

theorem alookup_adel_self (m : List (α × Option Nat)) (k : α)
    (h : (m.map Prod.fst).Nodup) : alookup (adel m k) k = none := by
  induction m with
  | nil => rfl
  | cons kv rest ih =>
    obtain ⟨k1, v1⟩ := kv
    rw [show adel ((k1, v1) :: rest) k
        = if k = k1 then rest else (k1, v1) :: adel rest k from rfl]
    simp only [List.map_cons, List.nodup_cons] at h
    by_cases hk : k = k1
    · rw [if_pos hk]
      subst hk
      exact alookup_none_of_not_mem_keys rest k h.1
    · rw [if_neg hk]
      rw [show alookup ((k1, v1) :: adel rest k) k
          = if k = k1 then some v1 else alookup (adel rest k) k from rfl, if_neg hk]
      exact ih h.2

theorem buildIndexAux_keysNodup :
    ∀ (rest : List α) (n : Nat) (acc : List (α × Option Nat)),
      (acc.map Prod.fst).Nodup →
      ((buildIndexAux rest n acc).map Prod.fst).Nodup
  | [], _, _, h => h
  | line :: rest, n, acc, h => by
    rw [show buildIndexAux (line :: rest) n acc
        = buildIndexAux rest (n + 1)
            (if (alookup acc line).isSome then aset acc line none
             else aset acc line (some n)) from rfl]
    refine buildIndexAux_keysNodup rest (n + 1) _ ?_
    by_cases hs : (alookup acc line).isSome
    · rw [if_pos hs]
      exact keysNodup_aset acc line none h
    · rw [if_neg hs]
      exact keysNodup_aset acc line (some n) h

theorem buildIndex_keysNodup (a : List α) :
    ((buildIndex a).map Prod.fst).Nodup :=
  buildIndexAux_keysNodup a 0 [] (by simp)

theorem count_snoc (pre : List α) (line x : α) :
    (pre ++ [line]).count x = pre.count x + if x = line then 1 else 0 := by
  rw [List.count_append]
  by_cases hxy : x = line
  · subst hxy
    rw [if_pos rfl]
    simp
  · rw [if_neg hxy]
    have hz : List.count x [line] = 0 := by
      rw [List.count_eq_zero]
      simp [hxy]
    omega

theorem get?_snoc (pre : List α) (line : α) (i : Nat) (x : α) :
    (pre ++ [line]).get? i = some x ↔
      (pre.get? i = some x ∨ (i = pre.length ∧ x = line)) := by
  constructor
  · intro h
    by_cases hi : i < pre.length
    · left
      rw [List.get?_append hi] at h
      exact h
    · by_cases he : i = pre.length
      · subst he
        rw [List.get?_concat_length] at h
        injection h with h
        exact Or.inr ⟨rfl, h.symm⟩
      · exfalso
        have hnone : (pre ++ [line]).get? i = none := by
          refine List.get?_eq_none.mpr ?_
          simp only [List.length_append, List.length_singleton]
          omega
        rw [hnone] at h
        cases h
  · intro h
    rcases h with h | ⟨hi, hx⟩
    · have hil : i < pre.length := (List.get?_eq_some.mp h).1
      rw [List.get?_append hil]
      exact h
    · subst hi
      subst hx
      exact List.get?_concat_length ..

/-- Characterization of the first loop of `unique_lcs_py`: the `index`
dict maps a line occurring once in `a` to its position, a line occurring
more often to `None`, and holds no entry for absent lines. -/
theorem buildIndexAux_char (a : List α) :
    ∀ (rest pre : List α) (acc : List (α × Option Nat)),
      a = pre ++ rest →
      (∀ x i, alookup acc x = some (some i) ↔
        (pre.count x = 1 ∧ pre.get? i = some x)) →
      (∀ x, alookup acc x = some none ↔ 2 ≤ pre.count x) →
      (∀ x, alookup acc x = none ↔ pre.count x = 0) →
      ((∀ x i, alookup (buildIndexAux rest pre.length acc) x = some (some i) ↔
          (a.count x = 1 ∧ a.get? i = some x)) ∧
       (∀ x, alookup (buildIndexAux rest pre.length acc) x = some none ↔
          2 ≤ a.count x) ∧
       (∀ x, alookup (buildIndexAux rest pre.length acc) x = none ↔
          a.count x = 0)) := by
  intro rest
  induction rest with
  | nil =>
    intro pre acc ha h1 h2 h3
    rw [List.append_nil] at ha
    subst ha
    exact ⟨h1, h2, h3⟩
  | cons line rest ih =>
    intro pre acc ha h1 h2 h3
    rw [show buildIndexAux (line :: rest) pre.length acc
        = buildIndexAux rest (pre.length + 1)
            (if (alookup acc line).isSome then aset acc line none
             else aset acc line (some pre.length)) from rfl]
    have ha2 : a = (pre ++ [line]) ++ rest := by
      rw [ha, List.append_assoc]
      rfl
    have hlen2 : (pre ++ [line]).length = pre.length + 1 := by
      simp
    rw [show pre.length + 1 = (pre ++ [line]).length from hlen2.symm]
    by_cases hs : (alookup acc line).isSome
    · rw [if_pos hs]
      have hc1 : 1 ≤ pre.count line := by
        by_contra h0
        have hz : pre.count line = 0 := by omega
        have := (h3 line).mpr hz
        rw [this] at hs
        simp at hs
      refine ih (pre ++ [line]) (aset acc line none) ha2 ?_ ?_ ?_
      · intro x i
        by_cases hx : x = line
        · subst hx
          rw [alookup_aset_self]
          constructor
          · intro h
            simp at h
          · rintro ⟨hcnt1, _⟩
            rw [count_snoc, if_pos rfl] at hcnt1
            omega
        · rw [alookup_aset_ne acc line x none hx, count_snoc, if_neg hx,
            Nat.add_zero]
          constructor
          · rintro h
            obtain ⟨hcw, hgw⟩ := (h1 x i).mp h
            exact ⟨hcw, (get?_snoc pre line i x).mpr (Or.inl hgw)⟩
          · rintro ⟨hcw, hgw⟩
            rcases (get?_snoc pre line i x).mp hgw with hg | ⟨_, hxl⟩
            · exact (h1 x i).mpr ⟨hcw, hg⟩
            · exact absurd hxl hx
      · intro x
        by_cases hx : x = line
        · subst hx
          rw [alookup_aset_self, count_snoc, if_pos rfl]
          constructor
          · intro _
            omega
          · intro _
            rfl
        · rw [alookup_aset_ne acc line x none hx, count_snoc, if_neg hx,
            Nat.add_zero]
          exact h2 x
      · intro x
        by_cases hx : x = line
        · subst hx
          rw [alookup_aset_self, count_snoc, if_pos rfl]
          constructor
          · intro h
            simp at h
          · intro h
            omega
        · rw [alookup_aset_ne acc line x none hx, count_snoc, if_neg hx,
            Nat.add_zero]
          exact h3 x
    · rw [if_neg hs]
      have hc0 : pre.count line = 0 := by
        cases hlk : alookup acc line with
        | none => exact (h3 line).mp hlk
        | some v =>
          rw [hlk] at hs
          simp at hs
      refine ih (pre ++ [line]) (aset acc line (some pre.length)) ha2 ?_ ?_ ?_
      · intro x i
        by_cases hx : x = line
        · subst hx
          rw [alookup_aset_self, count_snoc, if_pos rfl, hc0]
          constructor
          · intro h
            injection h with h
            injection h with h
            subst h
            exact ⟨rfl, (get?_snoc pre x pre.length x).mpr (Or.inr ⟨rfl, rfl⟩)⟩
          · rintro ⟨_, hgw⟩
            rcases (get?_snoc pre x i x).mp hgw with hg | ⟨hi, _⟩
            · exfalso
              have hm : x ∈ pre := List.get?_mem hg
              have := List.count_pos_iff.mpr hm
              omega
            · rw [hi]
        · rw [alookup_aset_ne acc line x (some pre.length) hx, count_snoc,
            if_neg hx, Nat.add_zero]
          constructor
          · rintro h
            obtain ⟨hcw, hgw⟩ := (h1 x i).mp h
            exact ⟨hcw, (get?_snoc pre line i x).mpr (Or.inl hgw)⟩
          · rintro ⟨hcw, hgw⟩
            rcases (get?_snoc pre line i x).mp hgw with hg | ⟨_, hxl⟩
            · exact (h1 x i).mpr ⟨hcw, hg⟩
            · exact absurd hxl hx
      · intro x
        by_cases hx : x = line
        · subst hx
          rw [alookup_aset_self, count_snoc, if_pos rfl, hc0]
          constructor
          · intro h
            simp at h
          · intro h
            omega
        · rw [alookup_aset_ne acc line x (some pre.length) hx, count_snoc,
            if_neg hx, Nat.add_zero]
          exact h2 x
      · intro x
        by_cases hx : x = line
        · subst hx
          rw [alookup_aset_self, count_snoc, if_pos rfl, hc0]
          constructor
          · intro h
            simp at h
          · intro h
            omega
        · rw [alookup_aset_ne acc line x (some pre.length) hx, count_snoc,
            if_neg hx, Nat.add_zero]
          exact h3 x

theorem buildIndex_char (a : List α) :
    (∀ x i, alookup (buildIndex a) x = some (some i) ↔
      (a.count x = 1 ∧ a.get? i = some x)) ∧
    (∀ x, alookup (buildIndex a) x = some none ↔ 2 ≤ a.count x) ∧
    (∀ x, alookup (buildIndex a) x = none ↔ a.count x = 0) := by
  have h := buildIndexAux_char a a [] [] (by simp)
    (fun x i => by simp [alookup])
    (fun x => by simp [alookup])
    (fun x => by simp [alookup])
  exact h

/-- Characterization of the second loop of `unique_lcs_py`: after
processing `b[0:pos]`, `btoa[p] = apos` exactly for positions `p < pos`
holding a line that occurs once in `a` (at `apos`), at its first
occurrence in `b`, with no second occurrence among `b[0:pos]`. -/
theorem buildBtoaAux_char (a b : List α) :
    ∀ (rest : List α) (pos : Nat) (index : List (α × Option Nat))
      (index2 : List (α × Nat)) (btoa : List (Option Nat)),
      (∀ j, rest.get? j = b.get? (pos + j)) →
      (index.map Prod.fst).Nodup →
      btoa.length = b.length →
      (∀ x i, alookup index x = some (some i) ↔
        (a.count x = 1 ∧ a.get? i = some x ∧ (b.take pos).count x ≤ 1)) →
      (∀ x, alookup index x = some none ↔ 2 ≤ a.count x) →
      (∀ x p, alookup index2 x = some p ↔
        (a.count x = 1 ∧ b.get? p = some x ∧ (b.take p).count x = 0 ∧
          1 ≤ (b.take pos).count x ∧ p < pos)) →
      (∀ p ap, btoa.get? p = some (some ap) ↔
        (∃ x, b.get? p = some x ∧ a.get? ap = some x ∧ a.count x = 1 ∧
          (b.take p).count x = 0 ∧ (b.take pos).count x = 1 ∧ p < pos)) →
      (∀ p ap, (buildBtoaAux rest pos index index2 btoa).get? p = some (some ap) ↔
        (∃ x, b.get? p = some x ∧ a.get? ap = some x ∧ a.count x = 1 ∧
          (b.take p).count x = 0 ∧ b.count x = 1 ∧ p < b.length)) := by
  intro rest
  induction rest with
  | nil =>
    intro pos index index2 btoa hrest hnd hlen hI1 hI2 hIdx2 hB
    have hple : b.length ≤ pos :=
      List.get?_eq_none.mp (by simpa using (hrest 0).symm)
    have htake : b.take pos = b := List.take_all_of_le hple
    intro p ap
    rw [show buildBtoaAux ([] : List α) pos index index2 btoa = btoa from rfl,
      hB p ap]
    constructor
    · rintro ⟨x, hgp, hga, hc, h0, h1, hplt⟩
      rw [htake] at h1
      exact ⟨x, hgp, hga, hc, h0, h1, (List.get?_eq_some.mp hgp).1⟩
    · rintro ⟨x, hgp, hga, hc, h0, h1, hplen⟩
      refine ⟨x, hgp, hga, hc, h0, ?_, by omega⟩
      rw [htake]
      exact h1
  | cons line rest ih =>
    intro pos index index2 btoa hrest hnd hlen hI1 hI2 hIdx2 hB
    have hline : b.get? pos = some line := by simpa using (hrest 0).symm
    have hposlen : pos < b.length := (List.get?_eq_some.mp hline).1
    have hrest2 : ∀ j, rest.get? j = b.get? (pos + 1 + j) := fun j => by
      rw [show pos + 1 + j = pos + (j + 1) from by omega]
      exact hrest (j + 1)
    have htsc : ∀ x, (b.take (pos + 1)).count x
        = (b.take pos).count x + if x = line then 1 else 0 :=
      take_succ_count b pos line hline
    cases hj : (alookup index line).join with
    | none =>
      rw [show buildBtoaAux (line :: rest) pos index index2 btoa
          = buildBtoaAux rest (pos + 1) index index2 btoa from by
        rw [show buildBtoaAux (line :: rest) pos index index2 btoa
            = match (alookup index line).join with
              | none => buildBtoaAux rest (pos + 1) index index2 btoa
              | some nxt =>
                match alookup index2 line with
                | some prevPos => buildBtoaAux rest (pos + 1) (adel index line)
                    index2 (btoa.set prevPos none)
                | none => buildBtoaAux rest (pos + 1) index
                    (aset index2 line pos) (btoa.set pos (some nxt)) from rfl,
          hj]]
      have hA : ¬(a.count line = 1 ∧ (b.take pos).count line ≤ 1) := by
        rintro ⟨hc1, hc2⟩
        have hmem : line ∈ a := List.count_pos_iff.mp (by omega)
        obtain ⟨i, hgi⟩ := List.mem_iff_get?.mp hmem
        have hsome := (hI1 line i).mpr ⟨hc1, hgi, hc2⟩
        rw [hsome] at hj
        simp at hj
      refine ih (pos + 1) index index2 btoa hrest2 hnd hlen ?_ hI2 ?_ ?_
      · intro x i
        by_cases hx : x = line
        · subst hx
          constructor
          · intro h
            have h2 := (hI1 x i).mp h
            exact absurd ⟨h2.1, h2.2.2⟩ hA
          · rintro ⟨hc1, hg, hle⟩
            rw [htsc x, if_pos rfl] at hle
            exact absurd ⟨hc1, by omega⟩ hA
        · rw [htsc x, if_neg hx, Nat.add_zero]
          exact hI1 x i
      · intro x p
        by_cases hx : x = line
        · subst hx
          constructor
          · intro h
            obtain ⟨hc1, hg, h0, h1c, hplt⟩ := (hIdx2 x p).mp h
            rw [htsc x, if_pos rfl]
            exact ⟨hc1, hg, h0, by omega, by omega⟩
          · rintro ⟨hc1, hg, h0, h1c, hplt⟩
            have h2c : 2 ≤ (b.take pos).count x := by
              rcases Nat.lt_or_ge ((b.take pos).count x) 2 with h | h
              · exact absurd ⟨hc1, by omega⟩ hA
              · exact h
            exact (hIdx2 x p).mpr ⟨hc1, hg, h0, by omega,
              first_occ_lt b pos p x (by omega) h0 hg⟩
        · rw [htsc x, if_neg hx, Nat.add_zero]
          constructor
          · intro h
            obtain ⟨hc1, hg, h0, h1c, hplt⟩ := (hIdx2 x p).mp h
            exact ⟨hc1, hg, h0, h1c, by omega⟩
          · rintro ⟨hc1, hg, h0, h1c, hplt⟩
            exact (hIdx2 x p).mpr ⟨hc1, hg, h0, h1c,
              first_occ_lt b pos p x h1c h0 hg⟩
      · intro p ap
        constructor
        · intro h
          obtain ⟨x, hgp, hga, hc, h0, h1, hplt⟩ := (hB p ap).mp h
          by_cases hx : x = line
          · subst hx
            exact absurd ⟨hc, by omega⟩ hA
          · refine ⟨x, hgp, hga, hc, h0, ?_, by omega⟩
            rw [htsc x, if_neg hx, Nat.add_zero]
            exact h1
        · rintro ⟨x, hgp, hga, hc, h0, h1, hplt⟩
          by_cases hx : x = line
          · subst hx
            rw [htsc x, if_pos rfl] at h1
            exact absurd ⟨hc, by omega⟩ hA
          · rw [htsc x, if_neg hx, Nat.add_zero] at h1
            exact (hB p ap).mpr ⟨x, hgp, hga, hc, h0, h1,
              first_occ_lt b pos p x (by omega) h0 hgp⟩
    | some nxt =>
      have hlk : alookup index line = some (some nxt) := Option.join_eq_some.mp hj
      obtain ⟨hcA1, hgnxt, hle1⟩ := (hI1 line nxt).mp hlk
      cases hj2 : alookup index2 line with
      | some prevPos =>
        rw [show buildBtoaAux (line :: rest) pos index index2 btoa
            = buildBtoaAux rest (pos + 1) (adel index line) index2
                (btoa.set prevPos none) from by
          rw [show buildBtoaAux (line :: rest) pos index index2 btoa
              = match (alookup index line).join with
                | none => buildBtoaAux rest (pos + 1) index index2 btoa
                | some nxt =>
                  match alookup index2 line with
                  | some prevPos => buildBtoaAux rest (pos + 1) (adel index line)
                      index2 (btoa.set prevPos none)
                  | none => buildBtoaAux rest (pos + 1) index
                      (aset index2 line pos) (btoa.set pos (some nxt)) from rfl,
            hj, hj2]]
        obtain ⟨_, hgprev, hprev0, hge1, hprevlt⟩ := (hIdx2 line prevPos).mp hj2
        have hcntpos : (b.take pos).count line = 1 := by omega
        refine ih (pos + 1) (adel index line) index2 (btoa.set prevPos none)
          hrest2 (keysNodup_adel index line hnd) (by rw [List.length_set]; exact hlen)
          ?_ ?_ ?_ ?_
        · intro x i
          by_cases hx : x = line
          · subst hx
            rw [alookup_adel_self index x hnd]
            constructor
            · intro h
              cases h
            · rintro ⟨hc1, hg, hle⟩
              rw [htsc x, if_pos rfl] at hle
              omega
          · rw [alookup_adel_ne index line x hx, htsc x, if_neg hx, Nat.add_zero]
            exact hI1 x i
        · intro x
          by_cases hx : x = line
          · subst hx
            rw [alookup_adel_self index x hnd]
            constructor
            · intro h
              cases h
            · intro h
              omega
          · rw [alookup_adel_ne index line x hx]
            exact hI2 x
        · intro x p
          by_cases hx : x = line
          · subst hx
            constructor
            · intro h
              obtain ⟨hc1, hg, h0, h1c, hplt⟩ := (hIdx2 x p).mp h
              rw [htsc x, if_pos rfl]
              exact ⟨hc1, hg, h0, by omega, by omega⟩
            · rintro ⟨hc1, hg, h0, h1c, hplt⟩
              exact (hIdx2 x p).mpr ⟨hc1, hg, h0, by omega,
                first_occ_lt b pos p x (by omega) h0 hg⟩
          · rw [htsc x, if_neg hx, Nat.add_zero]
            constructor
            · intro h
              obtain ⟨hc1, hg, h0, h1c, hplt⟩ := (hIdx2 x p).mp h
              exact ⟨hc1, hg, h0, h1c, by omega⟩
            · rintro ⟨hc1, hg, h0, h1c, hplt⟩
              exact (hIdx2 x p).mpr ⟨hc1, hg, h0, h1c,
                first_occ_lt b pos p x h1c h0 hg⟩
        · intro p ap
          by_cases hp : prevPos = p
          · subst hp
            have hset : (btoa.set prevPos none).get? prevPos = some none := by
              refine get?_set_self _ btoa prevPos none ?_
              rw [hlen]
              omega
            rw [hset]
            constructor
            · intro h
              cases h
            · rintro ⟨x, hgp, hga, hc, h0, h1, hplt⟩
              have hxl : x = line := by
                rw [hgprev] at hgp
                injection hgp with h2
                exact h2.symm
              subst hxl
              rw [htsc x, if_pos rfl] at h1
              omega
          · rw [get?_set_ne _ btoa prevPos p none hp]
            constructor
            · intro h
              obtain ⟨x, hgp, hga, hc, h0, h1, hplt⟩ := (hB p ap).mp h
              by_cases hx : x = line
              · subst hx
                exact absurd (first_occ_unique b p prevPos x hgp hgprev h0 hprev0)
                  (fun h2 => hp h2.symm)
              · refine ⟨x, hgp, hga, hc, h0, ?_, by omega⟩
                rw [htsc x, if_neg hx, Nat.add_zero]
                exact h1
            · rintro ⟨x, hgp, hga, hc, h0, h1, hplt⟩
              by_cases hx : x = line
              · subst hx
                rw [htsc x, if_pos rfl] at h1
                omega
              · rw [htsc x, if_neg hx, Nat.add_zero] at h1
                exact (hB p ap).mpr ⟨x, hgp, hga, hc, h0, h1,
                  first_occ_lt b pos p x (by omega) h0 hgp⟩
      | none =>
        rw [show buildBtoaAux (line :: rest) pos index index2 btoa
            = buildBtoaAux rest (pos + 1) index (aset index2 line pos)
                (btoa.set pos (some nxt)) from by
          rw [show buildBtoaAux (line :: rest) pos index index2 btoa
              = match (alookup index line).join with
                | none => buildBtoaAux rest (pos + 1) index index2 btoa
                | some nxt =>
                  match alookup index2 line with
                  | some prevPos => buildBtoaAux rest (pos + 1) (adel index line)
                      index2 (btoa.set prevPos none)
                  | none => buildBtoaAux rest (pos + 1) index
                      (aset index2 line pos) (btoa.set pos (some nxt)) from rfl,
            hj, hj2]]
        have hc0 : (b.take pos).count line = 0 := by
          by_contra h0
          have h1c : 1 ≤ (b.take pos).count line := by omega
          obtain ⟨p, hplt, hgp, hp0⟩ := exists_first_occ b line pos h1c
          have hsome := (hIdx2 line p).mpr ⟨hcA1, hgp, hp0, h1c, hplt⟩
          rw [hsome] at hj2
          cases hj2
        refine ih (pos + 1) index (aset index2 line pos)
          (btoa.set pos (some nxt)) hrest2 hnd
          (by rw [List.length_set]; exact hlen) ?_ hI2 ?_ ?_
        · intro x i
          by_cases hx : x = line
          · subst hx
            rw [hlk, htsc x, if_pos rfl, hc0]
            constructor
            · intro h
              injection h with h
              injection h with h
              subst h
              exact ⟨hcA1, hgnxt, by omega⟩
            · rintro ⟨hc1, hg, _⟩
              have : i = nxt := count_one_unique_pos a x i nxt hc1 hg hgnxt
              rw [this]
          · rw [htsc x, if_neg hx, Nat.add_zero]
            exact hI1 x i
        · intro x p
          by_cases hx : x = line
          · subst hx
            rw [alookup_aset_self, htsc x, if_pos rfl, hc0]
            constructor
            · intro h
              injection h with h
              subst h
              exact ⟨hcA1, hline, hc0, by omega, by omega⟩
            · rintro ⟨hc1, hg, h0, _, hplt⟩
              have : p = pos := first_occ_unique b p pos x hg hline h0 hc0
              rw [this]
          · rw [alookup_aset_ne index2 line x pos hx, htsc x, if_neg hx,
              Nat.add_zero]
            constructor
            · intro h
              obtain ⟨hc1, hg, h0, h1c, hplt⟩ := (hIdx2 x p).mp h
              exact ⟨hc1, hg, h0, h1c, by omega⟩
            · rintro ⟨hc1, hg, h0, h1c, hplt⟩
              exact (hIdx2 x p).mpr ⟨hc1, hg, h0, h1c,
                first_occ_lt b pos p x h1c h0 hg⟩
        · intro p ap
          by_cases hp : pos = p
          · subst hp
            have hset : (btoa.set pos (some nxt)).get? pos = some (some nxt) := by
              refine get?_set_self _ btoa pos (some nxt) ?_
              rw [hlen]
              exact hposlen
            rw [hset]
            constructor
            · intro h
              have hap : ap = nxt := by
                injection h with h
                injection h with h
                omega
              subst hap
              refine ⟨line, hline, hgnxt, hcA1, hc0, ?_, by omega⟩
              rw [htsc line, if_pos rfl, hc0]
            · rintro ⟨x, hgp, hga, hc, h0, h1, hplt⟩
              have hxl : x = line := by
                rw [hline] at hgp
                injection hgp with h2
                exact h2.symm
              subst hxl
              have : ap = nxt := count_one_unique_pos a x ap nxt hc hga hgnxt
              rw [this]
          · rw [get?_set_ne _ btoa pos p (some nxt) hp]
            constructor
            · intro h
              obtain ⟨x, hgp, hga, hc, h0, h1, hplt⟩ := (hB p ap).mp h
              by_cases hx : x = line
              · subst hx
                omega
              · refine ⟨x, hgp, hga, hc, h0, ?_, by omega⟩
                rw [htsc x, if_neg hx, Nat.add_zero]
                exact h1
            · rintro ⟨x, hgp, hga, hc, h0, h1, hplt⟩
              by_cases hx : x = line
              · subst hx
                have : p = pos := first_occ_unique b p pos x hgp hline h0 hc0
                exact absurd this.symm hp
              · rw [htsc x, if_neg hx, Nat.add_zero] at h1
                exact (hB p ap).mpr ⟨x, hgp, hga, hc, h0, h1,
                  first_occ_lt b pos p x (by omega) h0 hgp⟩

/-- `btoa[p] = apos` exactly when `b[p]` occurs once in `b` and once in
`a`, at position `apos`. -/
theorem buildBtoa_char (a b : List α) : ∀ p ap,
    (buildBtoa a b).get? p = some (some ap) ↔
    (∃ x, b.get? p = some x ∧ a.get? ap = some x ∧
      a.count x = 1 ∧ b.count x = 1) := by
  have hrep : ∀ p ap, (List.replicate b.length (none : Option Nat)).get? p
      = some (some ap) → False := by
    intro p ap h
    rcases List.get?_eq_some.mp h with ⟨hlt, hget⟩
    rw [List.get_replicate] at hget
    simp at hget
  have h := buildBtoaAux_char a b b 0 (buildIndex a) []
    (List.replicate b.length none) (fun j => by simp)
    (buildIndex_keysNodup a) (List.length_replicate ..)
    (fun x i => by
      rw [(buildIndex_char a).1 x i]
      simp)
    (buildIndex_char a).2.1
    (fun x p => by
      constructor
      · intro hx
        simp [alookup] at hx
      · rintro ⟨_, _, _, h1c, _⟩
        simp at h1c)
    (fun p ap => by
      constructor
      · intro hx
        exact absurd hx (fun hx => hrep p ap hx)
      · rintro ⟨x, _, _, _, _, _, hplt⟩
        omega)
  intro p ap
  rw [show buildBtoa a b
      = buildBtoaAux b 0 (buildIndex a) [] (List.replicate b.length none)
      from rfl, h p ap]
  constructor
  · rintro ⟨x, hgp, hga, hca, h0, hcb, hplt⟩
    exact ⟨x, hgp, hga, hca, hcb⟩
  · rintro ⟨x, hgp, hga, hca, hcb⟩
    exact ⟨x, hgp, hga, hca, take_count_zero_of_count_one b p x hcb hgp, hcb,
      (List.get?_eq_some.mp hgp).1⟩

/-- The loop invariant holds initially. -/
theorem patInv_init (btoa : List (Option Nat)) :
    PatInv btoa 0 ⟨List.replicate btoa.length none, [], [], 0⟩ := by
  constructor
  case sorted => intro i j ai aj _ hi _; simp at hi
  case len_eq => rfl
  case len_le => exact Nat.le_refl 0
  case k_lt => intro h; exact absurd rfl h
  case bptr_len => exact List.length_replicate ..
  case untouched =>
    intro p _ hp
    rw [List.length_replicate] at hp
    rw [List.get?_eq_get (by rw [List.length_replicate]; exact hp),
      List.get_replicate]
  case entries => intro i ap hi; simp at hi
  case opt =>
    intro p ap L hchain
    exact absurd hchain.end_lt (by omega)

/-- A `none` stream entry is skipped without touching the state. -/
theorem patInv_skip (btoa : List (Option Nat)) (t : Nat) (st : PatState)
    (inv : PatInv btoa t st) (hcur : btoa.get? t = some none) :
    PatInv btoa (t + 1) st := by
  constructor
  case sorted => exact inv.sorted
  case len_eq => exact inv.len_eq
  case len_le => exact Nat.le_succ_of_le inv.len_le
  case k_lt => exact inv.k_lt
  case bptr_len => exact inv.bptr_len
  case untouched => intro p hp hl; exact inv.untouched p (by omega) hl
  case entries =>
    intro i ap hi
    obtain ⟨bp, h1, h2, h3, h4⟩ := inv.entries i ap hi
    exact ⟨bp, h1, by omega, h3, h4⟩
  case opt =>
    intro p ap L hchain
    have hpt : p < t := by
      have hple := hchain.end_lt
      rcases Nat.lt_or_ge p t with h | h
      · exact h
      · have hpeq : p = t := by omega
        subst hpeq
        cases hchain with
        | one _ _ hq hv =>
          rw [hcur] at hv
          cases hv
        | more _ _ p2 apx L2 hq hv hsub h4 h5 =>
          rw [hcur] at hv
          cases hv
    exact inv.opt p ap L (hchain.of_lt hpt)

/-- The patience loop preserves the invariant across the whole stream. -/
theorem patLoop_inv (btoa : List (Option Nat))
    (hinj : ∀ p q v, btoa.get? p = some (some v) →
      btoa.get? q = some (some v) → p = q) :
    ∀ (suffix : List (Option Nat)) (t : Nat) (st : PatState),
      (∀ j, suffix.get? j = btoa.get? (t + j)) →
      suffix.length + t = btoa.length →
      PatInv btoa t st →
      PatInv btoa btoa.length (patLoop suffix t st) := by
  intro suffix
  induction suffix with
  | nil =>
    intro t st _ hlen inv
    have ht : t = btoa.length := by simpa using hlen
    rw [show patLoop [] t st = st from rfl, ← ht]
    exact inv
  | cons entry rest ih =>
    intro t st hsuf hlen inv
    have hcur : btoa.get? t = some entry := by simpa using (hsuf 0).symm
    have hsuf2 : ∀ j, rest.get? j = btoa.get? (t + 1 + j) := fun j => by
      rw [show t + 1 + j = t + (j + 1) from by omega]
      exact hsuf (j + 1)
    have hlen2 : rest.length + (t + 1) = btoa.length := by
      simp at hlen
      omega
    cases entry with
    | none =>
      rw [show patLoop (none :: rest) t st = patLoop rest (t + 1) st from rfl]
      exact ih (t + 1) st hsuf2 hlen2 (patInv_skip btoa t st inv hcur)
    | some ap =>
      rw [show patLoop (some ap :: rest) t st
          = patLoop rest (t + 1) (patStep st t ap) from rfl]
      refine ih (t + 1) (patStep st t ap) hsuf2 hlen2 ?_
      refine patStep_inv btoa t st inv ap hcur ?_
      intro p v hp hv
      subst hv
      exact hinj p t v hp hcur

/-- Chasing backpointers from the end of a chain reproduces exactly the
chain's pairs, in increasing order. -/
theorem chaseBack_sound (btoa bptr : List (Option Nat)) :
    ∀ (k ap L : Nat), Chained btoa bptr k ap L →
    ∀ (fuel : Nat) (acc : List (Nat × Nat)), L ≤ fuel →
    ∃ rs : List (Nat × Nat),
      chaseBack btoa bptr fuel k acc = rs ++ acc ∧
      rs.length = L ∧
      (∀ pr ∈ rs, btoa.get? pr.2 = some (some pr.1)) ∧
      List.Chain' (fun pr qr : Nat × Nat => pr.1 < qr.1 ∧ pr.2 < qr.2) rs ∧
      rs.getLast? = some (ap, k) := by
  intro k ap L h
  induction h with
  | one j ap2 h1 h2 =>
    intro fuel acc hf
    obtain ⟨f, rfl⟩ : ∃ f, fuel = f + 1 := ⟨fuel - 1, by omega⟩
    have hval : (btoa.getD j none).getD 0 = ap2 := by
      rw [List.getD_eq_get?, h1]
      rfl
    have hbp : bptr.getD j none = none := by
      rw [List.getD_eq_get?, h2]
      rfl
    refine ⟨[(ap2, j)], ?_, rfl, ?_, List.chain'_singleton _, rfl⟩
    · rw [show chaseBack btoa bptr (f + 1) j acc
          = (match bptr.getD j none with
             | none => ((btoa.getD j none).getD 0, j) :: acc
             | some k2 => chaseBack btoa bptr f k2
                 (((btoa.getD j none).getD 0, j) :: acc)) from rfl, hbp]
      show ((btoa.getD j none).getD 0, j) :: acc = [(ap2, j)] ++ acc
      rw [hval]
      rfl
    · intro pr hpr
      rw [List.mem_singleton] at hpr
      subst hpr
      exact h1
  | more j ap2 j2 ap3 L h1 h2 h3 h4 h5 ih =>
    intro fuel acc hf
    obtain ⟨f, rfl⟩ : ∃ f, fuel = f + 1 := ⟨fuel - 1, by omega⟩
    have hval : (btoa.getD j none).getD 0 = ap2 := by
      rw [List.getD_eq_get?, h1]
      rfl
    have hbp : bptr.getD j none = some j2 := by
      rw [List.getD_eq_get?, h2]
      rfl
    obtain ⟨rs2, heq, hlen, hmem, hchain, hlast⟩ := ih f ((ap2, j) :: acc) (by omega)
    refine ⟨rs2 ++ [(ap2, j)], ?_, ?_, ?_, ?_, List.getLast?_concat _⟩
    · rw [show chaseBack btoa bptr (f + 1) j acc
          = (match bptr.getD j none with
             | none => ((btoa.getD j none).getD 0, j) :: acc
             | some k2 => chaseBack btoa bptr f k2
                 (((btoa.getD j none).getD 0, j) :: acc)) from rfl, hbp]
      show chaseBack btoa bptr f j2 (((btoa.getD j none).getD 0, j) :: acc)
          = (rs2 ++ [(ap2, j)]) ++ acc
      rw [hval, heq, List.append_assoc]
      rfl
    · simp [hlen]
    · intro pr hpr
      rcases List.mem_append.mp hpr with h | h
      · exact hmem pr h
      · rw [List.mem_singleton] at h
        subst h
        exact h1
    · refine List.chain'_append.mpr ⟨hchain, List.chain'_singleton _, ?_⟩
      intro x hx y hy
      rw [hlast] at hx
      injection hx with hx
      subst hx
      rw [show ([(ap2, j)] : List (Nat × Nat)).head? = some (ap2, j) from rfl] at hy
      injection hy with hy
      subst hy
      exact ⟨h5, h4⟩

/-- A nonempty strictly increasing list of valid `btoa` pairs yields a
backpointer-free chain ending at its last pair. -/
theorem endChain_of_pairs (btoa : List (Option Nat)) (tlen : Nat) :
    ∀ (s : List (Nat × Nat)), s ≠ [] →
      (∀ pr ∈ s, pr.2 < tlen ∧ btoa.get? pr.2 = some (some pr.1)) →
      List.Chain' (fun pr qr : Nat × Nat => pr.1 < qr.1 ∧ pr.2 < qr.2) s →
      ∃ pr, s.getLast? = some pr ∧ EndChain btoa tlen pr.2 pr.1 s.length := by
  intro s
  induction s using List.reverseRecOn with
  | nil => intro h; exact absurd rfl h
  | append_singleton l pr ih =>
    intro _ hmem hchain
    have hprm : pr ∈ l ++ [pr] := List.mem_append.mpr (Or.inr (List.mem_singleton.mpr rfl))
    obtain ⟨hlt, hval⟩ := hmem pr hprm
    rcases List.chain'_append.mp hchain with ⟨hcl, _, hlink⟩
    by_cases hlnil : l = []
    · subst hlnil
      refine ⟨pr, rfl, ?_⟩
      rw [show ([] ++ [pr] : List (Nat × Nat)).length = 1 from rfl]
      exact EndChain.one pr.2 pr.1 hlt hval
    · have hlne : l ≠ [] := hlnil
      obtain ⟨q, hq⟩ := List.getLast?_isSome.mpr hlne |> Option.isSome_iff_exists.mp
      obtain ⟨q', hq', hEnd⟩ := ih hlne
        (fun x hx => hmem x (List.mem_append.mpr (Or.inl hx))) hcl
      rw [hq] at hq'
      injection hq' with hq'
      subst hq'
      have hR := hlink q (by rw [hq]; rfl) pr rfl
      refine ⟨pr, List.getLast?_concat _, ?_⟩
      rw [List.length_append, List.length_singleton]
      exact EndChain.more pr.2 pr.1 q.2 q.1 l.length hlt hval hEnd hR.2 hR.1

/-- The property claimed of `unique_lcs`: pairs of positions of lines
occurring exactly once in each input, equal there, strictly increasing in
both coordinates. -/
def UniqueMatching (a b : List α) (s : List (Nat × Nat)) : Prop :=
  (∀ pr ∈ s, ∃ x, a.get? pr.1 = some x ∧ b.get? pr.2 = some x ∧
    a.count x = 1 ∧ b.count x = 1) ∧
  List.Chain' (fun pr qr : Nat × Nat => pr.1 < qr.1 ∧ pr.2 < qr.2) s

/-- C6: `unique_lcs_py(a, b)` returns a list of `(ai, bi)` pairs with
`a[ai] == b[bi]`, both lines occurring exactly once in their sequence,
strictly increasing in both coordinates, of maximal length among all such
common subsequences; it is empty when no uniquely-shared element exists. -/
theorem claim_C6_unique_lcs (a b : List α) :
    UniqueMatching a b (unique_lcs a b) ∧
    (∀ s, UniqueMatching a b s → s.length ≤ (unique_lcs a b).length) ∧
    ((¬ ∃ x, a.count x = 1 ∧ b.count x = 1 ∧ x ∈ b) → unique_lcs a b = []) := by
  have hblen : (buildBtoa a b).length = b.length := buildBtoa_length a b
  have hinj : ∀ p q v, (buildBtoa a b).get? p = some (some v) →
      (buildBtoa a b).get? q = some (some v) → p = q := by
    intro p q v hp hq
    obtain ⟨x1, hb1, ha1, hca1, hcb1⟩ := (buildBtoa_char a b p v).mp hp
    obtain ⟨x2, hb2, ha2, hca2, hcb2⟩ := (buildBtoa_char a b q v).mp hq
    have hx : x1 = x2 := by
      have h12 := ha1.symm.trans ha2
      injection h12
    subst hx
    exact count_one_unique_pos b x1 p q hcb1 hb1 hb2
  have hinv : PatInv (buildBtoa a b) (buildBtoa a b).length
      (patLoop (buildBtoa a b) 0 ⟨List.replicate b.length none, [], [], 0⟩) := by
    have hinit := patInv_init (buildBtoa a b)
    rw [hblen] at hinit
    exact patLoop_inv (buildBtoa a b) hinj (buildBtoa a b) 0 _
      (fun j => by simp) (by omega) hinit
  have H : ∀ st : PatState,
      PatInv (buildBtoa a b) (buildBtoa a b).length st →
      (UniqueMatching a b (match st.lasts.getLast? with
        | none => []
        | some kLast => chaseBack (buildBtoa a b) st.backpointers
            (b.length + 1) kLast []) ∧
      (∀ s, UniqueMatching a b s → s.length ≤ (match st.lasts.getLast? with
        | none => []
        | some kLast => chaseBack (buildBtoa a b) st.backpointers
            (b.length + 1) kLast []).length)) := by
    intro st inv
    cases hlast : st.lasts.getLast? with
    | none =>
      simp only
      have hlasts_nil : st.lasts = [] := by
        cases hl : st.lasts with
        | nil => rfl
        | cons y ys =>
          rw [hl] at hlast
          have hs : (y :: ys).getLast?.isSome := List.getLast?_isSome.mpr (by simp)
          rw [hlast] at hs
          cases hs
      have hpiles_nil : st.piles = [] := by
        have hle := inv.len_eq
        rw [hlasts_nil] at hle
        exact List.length_eq_zero.mp (by simpa using hle)
      constructor
      · exact ⟨by intro pr hpr; simp at hpr, List.chain'_nil⟩
      · intro s hs
        by_cases hsnil : s = []
        · subst hsnil
          simp
        · exfalso
          obtain ⟨hmem, hchain⟩ := hs
          have hpairs : ∀ pr2 ∈ s, pr2.2 < (buildBtoa a b).length ∧
              (buildBtoa a b).get? pr2.2 = some (some pr2.1) := by
            intro pr2 hpr2
            obtain ⟨x, ha2, hb2, hca, hcb⟩ := hmem pr2 hpr2
            exact ⟨by rw [hblen]; exact (List.get?_eq_some.mp hb2).1,
              (buildBtoa_char a b pr2.2 pr2.1).mpr ⟨x, hb2, ha2, hca, hcb⟩⟩
          obtain ⟨pr, hprl, hEnd⟩ := endChain_of_pairs (buildBtoa a b)
            (buildBtoa a b).length s hsnil hpairs hchain
          obtain ⟨al, hal, _⟩ := inv.opt pr.2 pr.1 s.length hEnd
          rw [hpiles_nil] at hal
          simp at hal
    | some kLast =>
      simp only
      have hlasts_ne : st.lasts ≠ [] := by
        intro h
        rw [h] at hlast
        cases hlast
      have hplen_pos : 0 < st.piles.length := by
        rcases Nat.eq_zero_or_pos st.piles.length with h0 | h
        · exfalso
          apply hlasts_ne
          have hl0 : st.lasts.length = 0 := by
            rw [← inv.len_eq]
            exact h0
          exact List.length_eq_zero.mp hl0
        · exact h
      have hgetl : st.piles.get? (st.piles.length - 1)
          = some (st.piles.getD (st.piles.length - 1) 0) :=
        get?_getD _ _ (by omega)
      obtain ⟨bp, hlbp, hbpt, hbval, hch⟩ := inv.entries _ _ hgetl
      have hkLast : kLast = bp := by
        have hll := List.getLast?_eq_get? st.lasts
        rw [hll, ← inv.len_eq, hlbp] at hlast
        injection hlast with h
        exact h.symm
      have hchlen : st.piles.length - 1 + 1 = st.piles.length := by omega
      rw [hchlen] at hch
      have hfuel : st.piles.length ≤ b.length + 1 := by
        have := inv.len_le
        rw [hblen] at this
        omega
      obtain ⟨rs, heq, hlen, hmem, hchain, hlastpair⟩ :=
        chaseBack_sound (buildBtoa a b) st.backpointers bp _ _ hch
          (b.length + 1) [] hfuel
      rw [hkLast, heq, List.append_nil]
      constructor
      · constructor
        · intro pr hpr
          obtain ⟨x, hb2, ha2, hca, hcb⟩ :=
            (buildBtoa_char a b pr.2 pr.1).mp (hmem pr hpr)
          exact ⟨x, ha2, hb2, hca, hcb⟩
        · exact hchain
      · intro s hs
        by_cases hsnil : s = []
        · subst hsnil
          simp
        · obtain ⟨hmem2, hchain2⟩ := hs
          have hpairs : ∀ pr2 ∈ s, pr2.2 < (buildBtoa a b).length ∧
              (buildBtoa a b).get? pr2.2 = some (some pr2.1) := by
            intro pr2 hpr2
            obtain ⟨x, ha2, hb2, hca, hcb⟩ := hmem2 pr2 hpr2
            exact ⟨by rw [hblen]; exact (List.get?_eq_some.mp hb2).1,
              (buildBtoa_char a b pr2.2 pr2.1).mpr ⟨x, hb2, ha2, hca, hcb⟩⟩
          obtain ⟨pr, hprl, hEnd⟩ := endChain_of_pairs (buildBtoa a b)
            (buildBtoa a b).length s hsnil hpairs hchain2
          obtain ⟨al, hal, _⟩ := inv.opt pr.2 pr.1 s.length hEnd
          have hsb : s.length - 1 < st.piles.length := (List.get?_eq_some.mp hal).1
          have hspos : 0 < s.length := List.length_pos.mpr hsnil
          rw [hlen]
          omega
  have hmain := H (patLoop (buildBtoa a b) 0
    ⟨List.replicate b.length none, [], [], 0⟩) hinv
  have hresEq : unique_lcs a b
      = (match (patLoop (buildBtoa a b) 0
            ⟨List.replicate b.length none, [], [], 0⟩).lasts.getLast? with
         | none => []
         | some kLast => chaseBack (buildBtoa a b)
             (patLoop (buildBtoa a b) 0
               ⟨List.replicate b.length none, [], [], 0⟩).backpointers
             (b.length + 1) kLast []) := rfl
  refine ⟨by rw [hresEq]; exact hmain.1, by rw [hresEq]; exact hmain.2, ?_⟩
  intro hno
  by_cases hnil : unique_lcs a b = []
  · exact hnil
  · exfalso
    obtain ⟨pr, hpr⟩ := List.exists_mem_of_ne_nil _ hnil
    have h1 : UniqueMatching a b (unique_lcs a b) := by
      rw [hresEq]
      exact hmain.1
    obtain ⟨x, ha2, hb2, hca, hcb⟩ := h1.1 pr hpr
    exact hno ⟨x, hca, hcb, List.get?_mem hb2⟩

end UniqueLcsProof



section RecurseMatches

variable {α : Type} [DecidableEq α]

/-! `recurse_matches_py` from `_piersdiff_py.py`.  The Python function
mutates `answer` in place; here the growing list is threaded through and
returned.  The main recursion is fuelled (each level consumes one unit;
`maxrecursion` reaching `-1` returns before any work), and the two inner
`while` loops carry fuel equal to the width of the interval they walk,
which bounds their iteration count. -/

/-- The `for apos, bpos in unique_lcs_py(...)` loop: recurse into each
gap between consecutive unique pairs, then record the pair.  `rm` is the
recursive call at the next depth. -/
def rmPairLoop
    (rm : Int → Int → Int → Int → List (Int × Int) →
      Except String (List (Int × Int)))
    (alo blo : Int) :
    List (Nat × Nat) → Int → Int → List (Int × Int) →
    Except String (List (Int × Int) × Int × Int)
  | [], last_a, last_b, answer => .ok (answer, last_a, last_b)
  | (p, q) :: rest, last_a, last_b, answer => do
    let apos : Int := (p : Int) + alo
    let bpos : Int := (q : Int) + blo
    let answer ← if last_a + 1 ≠ apos ∨ last_b + 1 ≠ bpos then
        rm (last_a + 1) (last_b + 1) apos bpos answer
      else pure answer
    rmPairLoop rm alo blo rest apos bpos (answer ++ [(apos, bpos)])

/-- `while alo < ahi and blo < bhi and a[alo] == b[blo]` walk recording
matching lines at the very beginning. -/
def rmEqWalkFwd (a b : List α) : Nat → Int → Int → Int → Int →
    List (Int × Int) → Except String (List (Int × Int) × Int × Int)
  | 0, alo, blo, ahi, bhi, answer =>
    if alo < ahi ∧ blo < bhi then .error "fuel exhausted"
    else .ok (answer, alo, blo)
  | fuel + 1, alo, blo, ahi, bhi, answer =>
    if alo < ahi ∧ blo < bhi then do
      let x ← pyGet a alo
      let y ← pyGet b blo
      if x = y then
        rmEqWalkFwd a b fuel (alo + 1) (blo + 1) ahi bhi (answer ++ [(alo, blo)])
      else .ok (answer, alo, blo)
    else .ok (answer, alo, blo)

/-- `while nahi > alo and nbhi > blo and a[nahi - 1] == b[nbhi - 1]` walk
locating matching lines at the very end. -/
def rmEqWalkBwd (a b : List α) : Nat → Int → Int → Int → Int →
    Except String (Int × Int)
  | 0, nahi, nbhi, alo, blo =>
    if alo < nahi ∧ blo < nbhi then .error "fuel exhausted"
    else .ok (nahi, nbhi)
  | fuel + 1, nahi, nbhi, alo, blo =>
    if alo < nahi ∧ blo < nbhi then do
      let x ← pyGet a (nahi - 1)
      let y ← pyGet b (nbhi - 1)
      if x = y then rmEqWalkBwd a b fuel (nahi - 1) (nbhi - 1) alo blo
      else .ok (nahi, nbhi)
    else .ok (nahi, nbhi)

/-- `recurse_matches_py(a, b, alo, blo, ahi, bhi, answer, maxrecursion)`. -/
def recurse_matches (a b : List α) : Nat → Int → Int → Int → Int → Int →
    List (Int × Int) → Except String (List (Int × Int))
  | 0, _, _, _, _, _, _ => .error "fuel exhausted"
  | fuel + 1, alo, blo, ahi, bhi, mr, answer =>
    if mr < 0 then .ok answer
    else if alo = ahi ∨ blo = bhi then .ok answer
    else do
      let oldlength := answer.length
      let res ← rmPairLoop
          (fun al bl ah bh ans => recurse_matches a b fuel al bl ah bh (mr - 1) ans)
          alo blo
          (unique_lcs (pySlice a alo (some ahi)) (pySlice b blo (some bhi)))
          (alo - 1) (blo - 1) answer
      match res with
      | (answer2, last_a, last_b) =>
        if oldlength < answer2.length then
          recurse_matches a b fuel (last_a + 1) (last_b + 1) ahi bhi (mr - 1) answer2
        else do
          let xa ← pyGet a alo
          let xb ← pyGet b blo
          if xa = xb then do
            let w ← rmEqWalkFwd a b (ahi - alo).toNat alo blo ahi bhi answer2
            match w with
            | (answer3, alo2, blo2) =>
              recurse_matches a b fuel alo2 blo2 ahi bhi (mr - 1) answer3
          else do
            let ya ← pyGet a (ahi - 1)
            let yb ← pyGet b (bhi - 1)
            if ya = yb then do
              let nn ← rmEqWalkBwd a b (ahi - 1 - alo).toNat (ahi - 1) (bhi - 1) alo blo
              match nn with
              | (nahi, nbhi) => do
                let answer4 ← recurse_matches a b fuel (last_a + 1) (last_b + 1)
                    nahi nbhi (mr - 1) answer2
                .ok (answer4 ++ (List.range (ahi - nahi).toNat).map
                    (fun i => (nahi + (i : Int), nbhi + (i : Int))))
            else .ok answer2

/-- A pair `recurse_matches` is allowed to append for the region
`[alo,ahi) × [blo,bhi)`: inside the region, with equal lines. -/
def RMValidPair (a b : List α) (alo ahi blo bhi : Int) (pr : Int × Int) : Prop :=
  alo ≤ pr.1 ∧ pr.1 < ahi ∧ blo ≤ pr.2 ∧ pr.2 < bhi ∧
  ∃ x, pyGet a pr.1 = .ok x ∧ pyGet b pr.2 = .ok x

end RecurseMatches

end Klondiff